import Mathlib

/-! TC_NetWorkBuffer: chunked receive buffer and length-framed packet parsing.

A shallow embedding of `util/tc_network_buffer.h` (namespace `tars`).

* `vector<char>` is a `List Byte`, a byte being its unsigned value `0..255`.
* `std::list<std::vector<char>>` is a `List (List Byte)`.
* `size_t` values are natural numbers; the one `size_t` subtraction of
  `parseBuffer` is modelled with its wrap-around (`size_t_sub`).
* The template parameter `T` of `getValue<T>` / `parseBuffer<T>` ranges over
  the three unsigned types the class instantiates it with (`LenType`).
* An output parameter `vector<char> &buffer` is an argument and a component of
  the result.
* The header only declares `addBuffer`, `addSwapBuffer`, `clearBuffers`,
  `getBufferLength`, `empty`, `getHeader`, `moveHeader` and
  `parseBufferOf1/2/4`; their bodies are modelled from the specification and
  marked as such.
* `SendBuffer` is embedded from the header, its `uint32_t` cursor and
  `uint32_t` length with their reduction modulo `2 ^ 32`.
* `ntohs` / `ntohl` and the reinterpreting loads of `getValue<T>` are modelled
  for both host byte orders, and every result holds on both.
-/

namespace tars

/-- One `char` of a `vector<char>`, as its unsigned value. -/
abbrev Byte := Fin 256

/-- Byte order of the host on which the code runs. -/
inductive ByteOrder
  | little
  | big
deriving DecidableEq

/-- The unsigned integer types `parseBuffer<T>` is instantiated with. -/
inductive LenType
  | uint8_t
  | uint16_t
  | uint32_t
deriving DecidableEq

/-- The value of `sizeof(T)`. -/
def LenType.sizeof : LenType → Nat
  | .uint8_t => 1
  | .uint16_t => 2
  | .uint32_t => 4

/-- The number of values of `T`, that is `2 ^ (8 * sizeof(T))`. -/
def LenType.card : LenType → Nat
  | .uint8_t => 256
  | .uint16_t => 65536
  | .uint32_t => 4294967296

/-- The enum `TC_NetWorkBuffer::PACKET_TYPE`. -/
inductive PACKET_TYPE
  | PACKET_LESS
  | PACKET_FULL
  | PACKET_ERR
deriving DecidableEq

/-- The number of values of `size_t` (LP64). -/
def SIZE_CARD : Nat := 18446744073709551616

/-- Subtraction of two `size_t` values, with wrap-around. -/
def size_t_sub (a b : Nat) : Nat := (a + SIZE_CARD - b % SIZE_CARD) % SIZE_CARD

/-- The integer obtained by reading the object representation `bs` on a host
of the given byte order: `*(uintN_t*)buffer.data()`. -/
def loadHost : ByteOrder → List Byte → Nat
  | .little, bs => bs.foldr (fun b acc => b.val + 256 * acc) 0
  | .big, bs => bs.foldl (fun acc b => acc * 256 + b.val) 0

/-- The libc function `ntohs`: network (big-endian) to host order, 16 bits. -/
def ntohs : ByteOrder → Nat → Nat
  | .big, v => v
  | .little, v => (v % 256) * 256 + (v / 256) % 256

/-- The libc function `ntohl`: network (big-endian) to host order, 32 bits. -/
def ntohl : ByteOrder → Nat → Nat
  | .big, v => v
  | .little, v =>
      (v % 256) * 16777216 + ((v / 256) % 256) * 65536
        + ((v / 65536) % 256) * 256 + (v / 16777216) % 256

/-- The data members of `TC_NetWorkBuffer`: the chunk list, the number of
bytes not yet parsed, and the offset into the first chunk. -/
structure TC_NetWorkBuffer where
  _bufferList : List (List Byte)
  _length : Nat
  _pos : Nat
deriving DecidableEq

namespace TC_NetWorkBuffer

/-- A freshly constructed buffer: no chunk, `_length = 0`, `_pos = 0`. -/
def init : TC_NetWorkBuffer := ⟨[], 0, 0⟩

/-- Modelled from the spec: the body of `addBuffer(const vector<char>&)` is not
in the header. "Copies bytes into a new chunk at the tail; increases total
length by bytes.length." -/
def addBuffer (self : TC_NetWorkBuffer) (buff : List Byte) : TC_NetWorkBuffer :=
  { self with _bufferList := self._bufferList ++ [buff], _length := self._length + buff.length }

/-- Modelled from the spec: the body of `getBufferLength()` is not in the
header. "Returns total remaining bytes across all chunks (O(1), maintained
incrementally, not recomputed by summation)." -/
def getBufferLength (self : TC_NetWorkBuffer) : Nat := self._length

/-- Modelled from the spec: the body of `empty()` is not in the header.
"True iff total remaining length is zero." -/
def empty (self : TC_NetWorkBuffer) : Bool := self.getBufferLength == 0

/-- The loop of the peek operation: copy the next `len` bytes starting at
offset `pos` of the first chunk, crossing into later chunks when needed. -/
def peekChunks : List (List Byte) → Nat → Nat → List Byte
  | [], _, _ => []
  | c :: rest, pos, len =>
      if len ≤ c.length - pos then (c.drop pos).take len
      else c.drop pos ++ peekChunks rest 0 (len - (c.length - pos))

/-- Modelled from the spec: the body of `getHeader(size_t, vector<char>&)` is
not in the header. "Returns a copy of the next len unconsumed bytes without
advancing the cursor, transparently stitching bytes from multiple chunks if
the requested span crosses chunk boundaries; returns insufficient without side
effects if totalLength() < len." The result is the returned `bool` and the
content of the output vector. -/
def getHeader (self : TC_NetWorkBuffer) (len : Nat) (buffer : List Byte) : Bool × List Byte :=
  if self.getBufferLength < len then (false, buffer)
  else (true, peekChunks self._bufferList self._pos len)

/-- The loop of the consume operation on the chunk list and the front offset:
leading chunks that are used up are dropped, an advance that ends inside a
chunk moves the offset. `none` when the chunks run out before `len` bytes. -/
def consumeChunks : List (List Byte) → Nat → Nat → Option (List (List Byte) × Nat)
  | [], pos, len => if len = 0 then some ([], pos) else none
  | c :: rest, pos, len =>
      if len = 0 then some (c :: rest, pos)
      else if len < c.length - pos then some (c :: rest, pos + len)
      else consumeChunks rest 0 (len - (c.length - pos))

/-- Modelled from the spec: the body of `moveHeader(size_t)` is not in the
header. "Advances the logical cursor by len bytes: fully-consumed leading
chunks are dropped, and if the advance ends partway through a chunk, that
chunk's unconsumed region is truncated from the front (implemented as an
offset into that chunk); decreases total length by len; must never be called
with len greater than totalLength(): doing so is a programming error
(asserted/fails fast)." `none` is the failed assertion. -/
def moveHeader (self : TC_NetWorkBuffer) (len : Nat) : Option TC_NetWorkBuffer :=
  if self.getBufferLength < len then none
  else
    match consumeChunks self._bufferList self._pos len with
    | none => none
    | some (chunks, pos) => some ⟨chunks, self._length - len, pos⟩

/-- The template `getValue<T>()`: peek `sizeof(T)` bytes and convert them from
network order; `0` when fewer bytes are buffered. -/
def getValue (host : ByteOrder) (T : LenType) (self : TC_NetWorkBuffer) : Nat :=
  match self.getHeader T.sizeof [] with
  | (true, buffer) =>
      if T.sizeof = 2 then ntohs host (loadHost host (buffer.take 2))
      else if T.sizeof = 4 then ntohl host (loadHost host (buffer.take 4))
      else loadHost host (buffer.take T.sizeof)
  | (false, _) => 0

/-- The template `parseBuffer<T>(buffer, minLength, maxLength)`. The result is
the returned `PACKET_TYPE`, the content of the output vector `buffer` and the
buffer state after the call; `none` when a `moveHeader` assertion fails. -/
def parseBuffer (host : ByteOrder) (T : LenType) (self : TC_NetWorkBuffer)
    (buffer : List Byte) (minLength maxLength : Nat) :
    Option (PACKET_TYPE × List Byte × TC_NetWorkBuffer) :=
  if self.getBufferLength < T.sizeof then some (.PACKET_LESS, buffer, self)
  else
    let minLength := if minLength < T.sizeof then T.sizeof else minLength
    let length := getValue host T self
    if length < minLength ∨ length > maxLength then some (.PACKET_ERR, buffer, self)
    else if self.getBufferLength < length then some (.PACKET_LESS, buffer, self)
    else
      match self.moveHeader T.sizeof with
      | none => none
      | some s1 =>
          match s1.getHeader (size_t_sub length T.sizeof) buffer with
          | (false, buffer) => some (.PACKET_LESS, buffer, s1)
          | (true, buffer) =>
              match s1.moveHeader (size_t_sub length T.sizeof) with
              | none => none
              | some s2 => some (.PACKET_FULL, buffer, s2)

/-- The bytes still buffered, in order: the chunks concatenated, without the
first `_pos` bytes. -/
def stream (self : TC_NetWorkBuffer) : List Byte :=
  self._bufferList.flatten.drop self._pos

/-- The front offset `pos` lies inside the first chunk of `chunks` (and is `0`
when there is no chunk). -/
def frontOK : List (List Byte) → Nat → Prop
  | [], pos => pos = 0
  | c :: _, pos => pos ≤ c.length

/-- The class invariant: `_length` is the number of buffered bytes and `_pos`
is an offset into the first chunk. -/
def WF (self : TC_NetWorkBuffer) : Prop :=
  self._length + self._pos = self._bufferList.flatten.length ∧
  frontOK self._bufferList self._pos

/-- Modelled from the spec: the body of `parseBufferOf1` is not in the header.
"This algorithm is exposed through three bound instantiations (W=1,2,4)":
the instantiation at `uint8_t`. -/
def parseBufferOf1 (host : ByteOrder) (self : TC_NetWorkBuffer) (buffer : List Byte)
    (minLength maxLength : Nat) : Option (PACKET_TYPE × List Byte × TC_NetWorkBuffer) :=
  parseBuffer host .uint8_t self buffer minLength maxLength

/-- Modelled from the spec: the body of `parseBufferOf2` is not in the header;
the instantiation at `uint16_t`. -/
def parseBufferOf2 (host : ByteOrder) (self : TC_NetWorkBuffer) (buffer : List Byte)
    (minLength maxLength : Nat) : Option (PACKET_TYPE × List Byte × TC_NetWorkBuffer) :=
  parseBuffer host .uint16_t self buffer minLength maxLength

/-- Modelled from the spec: the body of `parseBufferOf4` is not in the header;
the instantiation at `uint32_t`. -/
def parseBufferOf4 (host : ByteOrder) (self : TC_NetWorkBuffer) (buffer : List Byte)
    (minLength maxLength : Nat) : Option (PACKET_TYPE × List Byte × TC_NetWorkBuffer) :=
  parseBuffer host .uint32_t self buffer minLength maxLength

/-- The static template `parseBinary1<iMinLength, iMaxLength>(in, out)`. -/
def parseBinary1 (host : ByteOrder) (iMinLength iMaxLength : Nat) (inBuf : TC_NetWorkBuffer)
    (out : List Byte) : Option (PACKET_TYPE × List Byte × TC_NetWorkBuffer) :=
  inBuf.parseBufferOf1 host out iMinLength iMaxLength

/-- The static template `parseBinary2<iMinLength, iMaxLength>(in, out)`. -/
def parseBinary2 (host : ByteOrder) (iMinLength iMaxLength : Nat) (inBuf : TC_NetWorkBuffer)
    (out : List Byte) : Option (PACKET_TYPE × List Byte × TC_NetWorkBuffer) :=
  inBuf.parseBufferOf2 host out iMinLength iMaxLength

/-- The static template `parseBinary4<iMinLength, iMaxLength>(in, out)`. -/
def parseBinary4 (host : ByteOrder) (iMinLength iMaxLength : Nat) (inBuf : TC_NetWorkBuffer)
    (out : List Byte) : Option (PACKET_TYPE × List Byte × TC_NetWorkBuffer) :=
  inBuf.parseBufferOf4 host out iMinLength iMaxLength

/-- The `parseBinaryN` template that belongs to a length type. -/
def parseBinary (host : ByteOrder) : LenType → Nat → Nat → TC_NetWorkBuffer → List Byte →
    Option (PACKET_TYPE × List Byte × TC_NetWorkBuffer)
  | .uint8_t => parseBinary1 host
  | .uint16_t => parseBinary2 host
  | .uint32_t => parseBinary4 host

/-- A sequence of `addBuffer` calls, one per chunk, in order. -/
def addBuffers (self : TC_NetWorkBuffer) (chunks : List (List Byte)) : TC_NetWorkBuffer :=
  chunks.foldl addBuffer self

/-- The caller of the split-delivery scenario: append one chunk, call
`parseBuffer<T>` with a fresh output vector, record the returned value and the
output, and go on with the next chunk. The run stops at a failed assertion. -/
def deliver (host : ByteOrder) (T : LenType) (minLength maxLength : Nat) :
    TC_NetWorkBuffer → List (List Byte) → List (PACKET_TYPE × List Byte)
  | _, [] => []
  | st, c :: cs =>
      match parseBuffer host T (st.addBuffer c) [] minLength maxLength with
      | none => []
      | some (r, out, st') => (r, out) :: deliver host T minLength maxLength st' cs

/-- The caller of the several-packets scenario: `n` successive calls of
`parseBuffer<T>` with a fresh output vector and no append in between. -/
def parseTimes (host : ByteOrder) (T : LenType) (minLength maxLength : Nat) :
    Nat → TC_NetWorkBuffer → List (PACKET_TYPE × List Byte)
  | 0, _ => []
  | n + 1, st =>
      match parseBuffer host T st [] minLength maxLength with
      | none => []
      | some (r, out, st') => (r, out) :: parseTimes host T minLength maxLength n st'

end TC_NetWorkBuffer

/-- The unsigned big-endian value of a byte sequence. -/
def beValue (bs : List Byte) : Nat := bs.foldl (fun acc b => acc * 256 + b.val) 0

/-- The `w` bytes that hold `n` in big-endian order (most significant first). -/
def beBytes : Nat → Nat → List Byte
  | 0, _ => []
  | w + 1, n => beBytes w (n / 256) ++ [⟨n % 256, Nat.mod_lt n (by decide)⟩]

/-- The wire format of one packet: the total length (length field included) in
`sizeof(T)` big-endian bytes, followed by the body. -/
def encodeFrame (T : LenType) (body : List Byte) : List Byte :=
  beBytes T.sizeof (body.length + T.sizeof) ++ body

/-- The classification of a buffered stream `S` as the framing rule words it:
too short for the length field, declared length out of bounds, packet not yet
complete, packet complete. -/
def classify (T : LenType) (minLength maxLength : Nat) (S : List Byte) : PACKET_TYPE :=
  if S.length < T.sizeof then .PACKET_LESS
  else if beValue (S.take T.sizeof) < max minLength T.sizeof ∨
      beValue (S.take T.sizeof) > maxLength then .PACKET_ERR
  else if S.length < beValue (S.take T.sizeof) then .PACKET_LESS
  else .PACKET_FULL

/-- A valid frame for the bounds: it starts with its own total length `L` in
`sizeof(T)` big-endian bytes, and `max(min, sizeof(T)) ≤ L ≤ max`. -/
def validFrame (T : LenType) (minLength maxLength : Nat) (F : List Byte) : Prop :=
  T.sizeof ≤ F.length ∧ beValue (F.take T.sizeof) = F.length ∧
    max minLength T.sizeof ≤ F.length ∧ F.length ≤ maxLength

instance (T : LenType) (minLength maxLength : Nat) (F : List Byte) :
    Decidable (validFrame T minLength maxLength F) := by
  unfold validFrame
  exact inferInstance

/-- The sum the scalar readers are specified by: the first `W` bytes of `S`,
byte `i` weighted by `256 ^ (W - 1 - i)`. -/
def beSum (W : Nat) (S : List Byte) : Nat :=
  ((List.range W).map (fun i => (S.getD i 0).val * 256 ^ (W - 1 - i))).sum

namespace TC_NetWorkBuffer

/-- Modelled from the spec: the body of `addSwapBuffer(vector<char>&)` is not
in the header. "Transfers ownership of bytes into a new tail chunk, leaving the
caller's handle empty; semantically identical to appendCopy." The result is the
buffer and the caller's vector after the call. -/
def addSwapBuffer (self : TC_NetWorkBuffer) (buff : List Byte) :
    TC_NetWorkBuffer × List Byte :=
  ({ self with _bufferList := self._bufferList ++ [buff],
               _length := self._length + buff.length }, [])

/-- Modelled from the spec: the body of `clearBuffers()` is not in the header.
"Removes all chunks, resets total length and any partial-chunk offset to
zero." -/
def clearBuffers (_self : TC_NetWorkBuffer) : TC_NetWorkBuffer := ⟨[], 0, 0⟩

/-- One call of a mutating member function of the chunk store. -/
inductive BufferOp
  | addBuffer (buff : List Byte)
  | addSwapBuffer (buff : List Byte)
  | moveHeader (len : Nat)
  | clearBuffers
deriving DecidableEq

/-- A buffer together with two counters kept beside it: the bytes appended
since the last clear and the bytes consumed since the last clear. -/
structure Traced where
  buf : TC_NetWorkBuffer
  appended : Nat
  consumed : Nat
deriving DecidableEq

/-- The effect of one call on the buffer and on the two counters; `none` when
`moveHeader` fails its assertion. -/
def applyOp (t : Traced) : BufferOp → Option Traced
  | .addBuffer buff => some ⟨t.buf.addBuffer buff, t.appended + buff.length, t.consumed⟩
  | .addSwapBuffer buff =>
      some ⟨(t.buf.addSwapBuffer buff).1, t.appended + buff.length, t.consumed⟩
  | .moveHeader len =>
      match t.buf.moveHeader len with
      | none => none
      | some b => some ⟨b, t.appended, t.consumed + len⟩
  | .clearBuffers => some ⟨t.buf.clearBuffers, 0, 0⟩

/-- A sequence of calls, starting from `t`. -/
def runOps : Traced → List BufferOp → Option Traced
  | t, [] => some t
  | t, op :: ops =>
      match applyOp t op with
      | none => none
      | some t' => runOps t' ops

end TC_NetWorkBuffer

/-! ## The outbound buffer `TC_NetWorkBuffer::SendBuffer`

`sendPos` is a `uint32_t`: it is kept below `UINT32_CARD` by reducing every
assignment modulo `UINT32_CARD`. `buffer()` returns the pointer
`sendBuffer.data() + sendPos`; it is modelled by the bytes from that position
to the end of the vector. `add` returns `none` when its assertion fails. -/

/-- The number of values of `uint32_t`. -/
def UINT32_CARD : Nat := 4294967296

/-- The data members of `TC_NetWorkBuffer::SendBuffer`. -/
structure TC_NetWorkBuffer.SendBuffer where
  sendBuffer : List Byte
  sendPos : Nat
deriving DecidableEq

namespace TC_NetWorkBuffer.SendBuffer

/-- The constructor `SendBuffer()`. -/
def init : SendBuffer := ⟨[], 0⟩

/-- The constructors `SendBuffer(const vector<char>&)` and
`SendBuffer(const char*, size_t)`. -/
def ofVector (sBuffer : List Byte) : SendBuffer := ⟨sBuffer, 0⟩

/-- The member `swap(vector<char> &buff)`: the result is the send buffer and
the caller's vector after the call. -/
def swap (self : SendBuffer) (buff : List Byte) : SendBuffer × List Byte :=
  (⟨buff, 0⟩, self.sendBuffer)

/-- The member `clear()`. -/
def clear (_self : SendBuffer) : SendBuffer := ⟨[], 0⟩

/-- The member `empty()`. -/
def empty (self : SendBuffer) : Bool := decide (self.sendBuffer.length ≤ self.sendPos)

/-- The member `addBuffer(const vector<char> &buffer)`. -/
def addBuffer (self : SendBuffer) (buffer : List Byte) : SendBuffer :=
  ⟨self.sendBuffer ++ buffer, self.sendPos⟩

/-- The member `assign(const char *buffer, size_t length)`, the argument being
the `length` bytes at `buffer`. -/
def assign (_self : SendBuffer) (buffer : List Byte) : SendBuffer := ⟨buffer, 0⟩

/-- The member `setBuffer(const vector<char> &buff, int pos = 0)`; the `int` is
converted to `uint32_t`. -/
def setBuffer (_self : SendBuffer) (buff : List Byte) (pos : Int) : SendBuffer :=
  ⟨buff, (pos % (UINT32_CARD : Int)).toNat⟩

/-- The member `buffer()`: the bytes at `sendBuffer.data() + sendPos`. -/
def buffer (self : SendBuffer) : List Byte := self.sendBuffer.drop self.sendPos

/-- The member `length()`: `(uint32_t)(sendBuffer.size() - sendPos)`. -/
def length (self : SendBuffer) : Nat :=
  size_t_sub self.sendBuffer.length self.sendPos % UINT32_CARD

/-- The member `add(uint32_t ret)`: `sendPos += ret` in `uint32_t`, then
`assert(sendPos <= sendBuffer.size())`. -/
def add (self : SendBuffer) (ret : Nat) : Option SendBuffer :=
  if (self.sendPos + ret) % UINT32_CARD ≤ self.sendBuffer.length then
    some ⟨self.sendBuffer, (self.sendPos + ret) % UINT32_CARD⟩
  else none

/-- One call of a public mutating member function of `SendBuffer`. -/
inductive SendOp
  | swap (buff : List Byte)
  | clear
  | addBuffer (buffer : List Byte)
  | assign (buffer : List Byte)
  | setBuffer (buff : List Byte) (pos : Int)
  | add (ret : Nat)
deriving DecidableEq

/-- The effect of one call; `none` when the assertion of `add` fails. -/
def applyOp (s : SendBuffer) : SendOp → Option SendBuffer
  | .swap buff => some (s.swap buff).1
  | .clear => some s.clear
  | .addBuffer buffer => some (s.addBuffer buffer)
  | .assign buffer => some (s.assign buffer)
  | .setBuffer buff pos => some (s.setBuffer buff pos)
  | .add ret => s.add ret

/-- A sequence of calls, starting from `s`. -/
def runOps : SendBuffer → List SendOp → Option SendBuffer
  | s, [] => some s
  | s, op :: ops =>
      match applyOp s op with
      | none => none
      | some s' => runOps s' ops

/-- The cursor handed to `setBuffer` lies inside the vector handed to it; no
condition on the other calls. -/
def cursorInside : SendOp → Prop
  | .setBuffer buff pos => 0 ≤ pos ∧ pos ≤ (buff.length : Int)
  | _ => True

instance (op : SendOp) : Decidable (cursorInside op) := by
  cases op <;> simp only [cursorInside] <;> exact inferInstance

end TC_NetWorkBuffer.SendBuffer

/-! ## The chunk loops against the flat stream -/

namespace TC_NetWorkBuffer

theorem peekChunks_eq (cs : List (List Byte)) :
    ∀ pos len, frontOK cs pos → peekChunks cs pos len = (cs.flatten.drop pos).take len := by
  induction cs with
  | nil => intro pos len _; simp [peekChunks]
  | cons c rest ih =>
    intro pos len h
    simp only [frontOK] at h
    have hz : frontOK rest 0 := by cases rest <;> simp [frontOK]
    simp only [peekChunks, List.flatten_cons, List.drop_append_of_le_length h]
    split
    · rename_i hle
      rw [List.take_append_of_le_length (by simpa using hle)]
    · rename_i hlt
      have hl : (c.drop pos).length ≤ len := by rw [List.length_drop]; omega
      rw [ih 0 _ hz, List.take_append_eq_append_take, List.drop_zero, List.length_drop,
        List.take_of_length_le hl]

theorem consumeChunks_spec (cs : List (List Byte)) :
    ∀ pos len, frontOK cs pos → len + pos ≤ cs.flatten.length →
      ∃ cs' pos', consumeChunks cs pos len = some (cs', pos') ∧ frontOK cs' pos' ∧
        cs'.flatten.drop pos' = cs.flatten.drop (pos + len) := by
  induction cs with
  | nil =>
    intro pos len h hl
    simp only [frontOK] at h
    simp only [List.flatten_nil, List.length_nil] at hl
    have : len = 0 := by omega
    subst this; subst h
    exact ⟨[], 0, by simp [consumeChunks], by simp [frontOK], by simp⟩
  | cons c rest ih =>
    intro pos len h hl
    have h' : pos ≤ c.length := h
    have hz : frontOK rest 0 := by cases rest <;> simp [frontOK]
    simp only [List.flatten_cons, List.length_append] at hl
    by_cases h0 : len = 0
    · subst h0
      exact ⟨c :: rest, pos, by simp [consumeChunks], h, by simp⟩
    · by_cases h1 : len < c.length - pos
      · refine ⟨c :: rest, pos + len, by simp [consumeChunks, h0, h1], ?_, rfl⟩
        show pos + len ≤ c.length
        omega
      · obtain ⟨cs', pos', e, f, g⟩ := ih 0 (len - (c.length - pos)) hz (by omega)
        refine ⟨cs', pos', by simp [consumeChunks, h0, h1, e], f, ?_⟩
        have hc : c.length ≤ pos + len := by omega
        rw [g, List.flatten_cons, List.drop_append_eq_append_drop,
          List.drop_of_length_le hc, List.nil_append, Nat.zero_add]
        congr 1
        omega

theorem stream_length {st : TC_NetWorkBuffer} (h : WF st) :
    st.stream.length = st._length := by
  have := h.1
  simp only [stream, List.length_drop]
  omega

theorem getHeader_spec {st : TC_NetWorkBuffer} (h : WF st) (len : Nat) (buffer : List Byte)
    (hl : len ≤ st._length) : st.getHeader len buffer = (true, st.stream.take len) := by
  have hn : ¬ st._length < len := by omega
  simp only [getHeader, getBufferLength, hn, if_false, stream, peekChunks_eq _ _ _ h.2]

theorem getHeader_short (st : TC_NetWorkBuffer) (len : Nat) (buffer : List Byte)
    (hl : st._length < len) : st.getHeader len buffer = (false, buffer) := by
  simp [getHeader, getBufferLength, hl]

theorem moveHeader_spec {st : TC_NetWorkBuffer} (h : WF st) (len : Nat)
    (hl : len ≤ st._length) :
    ∃ st', st.moveHeader len = some st' ∧ WF st' ∧ st'.stream = st.stream.drop len ∧
      st'._length = st._length - len := by
  have hsum := h.1
  obtain ⟨cs', pos', e, f, g⟩ := consumeChunks_spec st._bufferList st._pos len h.2 (by omega)
  have hn : ¬ st._length < len := by omega
  refine ⟨⟨cs', st._length - len, pos'⟩, by simp [moveHeader, getBufferLength, hn, e], ⟨?_, f⟩,
    ?_, rfl⟩
  · have hlen := congrArg List.length g
    simp only [List.length_drop] at hlen
    have hp : pos' ≤ cs'.flatten.length := by
      cases cs' with
      | nil => simp only [frontOK] at f; omega
      | cons c r =>
        have : pos' ≤ c.length := f
        simp only [List.flatten_cons, List.length_append]
        omega
    show st._length - len + pos' = cs'.flatten.length
    omega
  · show cs'.flatten.drop pos' = (st._bufferList.flatten.drop st._pos).drop len
    rw [g, List.drop_drop]

theorem WF_init : WF init := by
  simp [WF, init, frontOK]

theorem WF_addBuffer {st : TC_NetWorkBuffer} (h : WF st) (buff : List Byte) :
    WF (st.addBuffer buff) := by
  obtain ⟨h1, h2⟩ := h
  refine ⟨?_, ?_⟩
  · simp only [addBuffer, List.flatten_append, List.length_append, List.flatten_cons,
      List.flatten_nil, List.append_nil]
    omega
  · simp only [addBuffer]
    cases hb : st._bufferList with
    | nil =>
      rw [hb] at h2
      simp only [frontOK] at h2
      simp [frontOK, h2]
    | cons c r =>
      rw [hb] at h2
      exact h2

theorem stream_addBuffer {st : TC_NetWorkBuffer} (h : WF st) (buff : List Byte) :
    (st.addBuffer buff).stream = st.stream ++ buff := by
  have := h.1
  simp only [stream, addBuffer, List.flatten_append, List.flatten_cons, List.flatten_nil,
    List.append_nil]
  rw [List.drop_append_of_le_length (by omega)]

/-! ## Network-order decoding -/

theorem ntohl_little_bytes (a b c d : Nat) (ha : a < 256) (hb : b < 256) (hc : c < 256)
    (hd : d < 256) :
    ntohl .little (a + 256 * (b + 256 * (c + 256 * d)))
      = ((a * 256 + b) * 256 + c) * 256 + d := by
  have h1 : (a + 256 * (b + 256 * (c + 256 * d))) % 256 = a := by omega
  have h2 : (a + 256 * (b + 256 * (c + 256 * d))) / 256 % 256 = b := by omega
  have h3 : (a + 256 * (b + 256 * (c + 256 * d))) / 65536 % 256 = c := by omega
  have h4 : (a + 256 * (b + 256 * (c + 256 * d))) / 16777216 % 256 = d := by omega
  simp only [ntohl, h1, h2, h3, h4]
  omega

theorem decode_eq_beValue (host : ByteOrder) (T : LenType) (l : List Byte)
    (hl : l.length = T.sizeof) :
    (if T.sizeof = 2 then ntohs host (loadHost host (l.take 2))
      else if T.sizeof = 4 then ntohl host (loadHost host (l.take 4))
      else loadHost host (l.take T.sizeof)) = beValue l ∧ beValue l < T.card := by
  cases T with
  | uint8_t =>
    match l, hl with
    | [a], _ =>
      have := a.isLt
      cases host <;> simp [LenType.sizeof, LenType.card, loadHost, beValue]
  | uint16_t =>
    match l, hl with
    | [a, b], _ =>
      have := a.isLt
      have := b.isLt
      cases host <;> simp [LenType.sizeof, LenType.card, loadHost, beValue, ntohs] <;> omega
  | uint32_t =>
    match l, hl with
    | [a, b, c, d], _ =>
      have := a.isLt
      have := b.isLt
      have := c.isLt
      have := d.isLt
      cases host
      · refine ⟨?_, by simp [LenType.card, beValue]; omega⟩
        simp only [LenType.sizeof, loadHost, beValue, List.take, List.foldr, List.foldl]
        simp only [Nat.reduceEqDiff, if_false, if_true, Nat.zero_mul, Nat.zero_add, Nat.mul_zero,
          Nat.add_zero]
        exact ntohl_little_bytes a b c d a.isLt b.isLt c.isLt d.isLt
      · simp [LenType.sizeof, LenType.card, loadHost, beValue, ntohl]; omega

theorem getValue_eq (host : ByteOrder) (T : LenType) {st : TC_NetWorkBuffer} (h : WF st)
    (hl : T.sizeof ≤ st._length) :
    getValue host T st = beValue (st.stream.take T.sizeof) ∧
      beValue (st.stream.take T.sizeof) < T.card := by
  have hlen : (st.stream.take T.sizeof).length = T.sizeof := by
    rw [List.length_take, stream_length h]; omega
  have := decode_eq_beValue host T _ hlen
  simp only [getValue, getHeader_spec h _ [] hl]
  exact this

theorem sizeof_pos (T : LenType) : 1 ≤ T.sizeof := by cases T <;> simp [LenType.sizeof]

theorem sizeof_le (T : LenType) : T.sizeof ≤ 4 := by cases T <;> simp [LenType.sizeof]

theorem card_le (T : LenType) : T.card ≤ 4294967296 := by cases T <;> simp [LenType.card]

theorem size_t_sub_eq (T : LenType) (length : Nat) (h1 : T.sizeof ≤ length)
    (h2 : length < T.card) : size_t_sub length T.sizeof = length - T.sizeof := by
  have := sizeof_le T
  have := card_le T
  simp only [size_t_sub, SIZE_CARD]
  omega

/-! ## The four outcomes of `parseBuffer` -/

theorem parseBuffer_short (host : ByteOrder) (T : LenType) {st : TC_NetWorkBuffer} (h : WF st)
    (buffer : List Byte) (minLength maxLength : Nat) (hs : st.stream.length < T.sizeof) :
    parseBuffer host T st buffer minLength maxLength = some (.PACKET_LESS, buffer, st) := by
  rw [stream_length h] at hs
  simp [parseBuffer, getBufferLength, hs]

theorem parseBuffer_err (host : ByteOrder) (T : LenType) {st : TC_NetWorkBuffer} (h : WF st)
    (buffer : List Byte) (minLength maxLength : Nat) (hs : T.sizeof ≤ st.stream.length)
    (hb : beValue (st.stream.take T.sizeof) < max minLength T.sizeof ∨
      maxLength < beValue (st.stream.take T.sizeof)) :
    parseBuffer host T st buffer minLength maxLength = some (.PACKET_ERR, buffer, st) := by
  rw [stream_length h] at hs
  have hn : ¬ st._length < T.sizeof := by omega
  have hv := (getValue_eq host T h hs).1
  have hc : getValue host T st < (if minLength < T.sizeof then T.sizeof else minLength) ∨
      getValue host T st > maxLength := by
    rw [hv]
    split <;> omega
  simp only [parseBuffer, getBufferLength, hn, if_false, hc, if_true]

theorem parseBuffer_wait (host : ByteOrder) (T : LenType) {st : TC_NetWorkBuffer} (h : WF st)
    (buffer : List Byte) (minLength maxLength : Nat) (hs : T.sizeof ≤ st.stream.length)
    (h1 : max minLength T.sizeof ≤ beValue (st.stream.take T.sizeof))
    (h2 : beValue (st.stream.take T.sizeof) ≤ maxLength)
    (h3 : st.stream.length < beValue (st.stream.take T.sizeof)) :
    parseBuffer host T st buffer minLength maxLength = some (.PACKET_LESS, buffer, st) := by
  rw [stream_length h] at hs h3
  have hn : ¬ st._length < T.sizeof := by omega
  have hv := (getValue_eq host T h hs).1
  have hc : ¬ (getValue host T st < (if minLength < T.sizeof then T.sizeof else minLength) ∨
      getValue host T st > maxLength) := by
    rw [hv]
    split <;> omega
  have hw : st._length < getValue host T st := by rw [hv]; exact h3
  simp only [parseBuffer, getBufferLength, hn, if_false, hc, hw, if_true]

theorem parseBuffer_full (host : ByteOrder) (T : LenType) {st : TC_NetWorkBuffer} (h : WF st)
    (buffer : List Byte) (minLength maxLength : Nat) (hs : T.sizeof ≤ st.stream.length)
    (h1 : max minLength T.sizeof ≤ beValue (st.stream.take T.sizeof))
    (h2 : beValue (st.stream.take T.sizeof) ≤ maxLength)
    (h3 : beValue (st.stream.take T.sizeof) ≤ st.stream.length) :
    ∃ st', parseBuffer host T st buffer minLength maxLength
        = some (.PACKET_FULL,
            (st.stream.drop T.sizeof).take (beValue (st.stream.take T.sizeof) - T.sizeof), st') ∧
      WF st' ∧ st'.stream = st.stream.drop (beValue (st.stream.take T.sizeof)) ∧
      st'._length = st._length - beValue (st.stream.take T.sizeof) := by
  rw [stream_length h] at hs h3
  have hn : ¬ st._length < T.sizeof := by omega
  obtain ⟨hv, hcard⟩ := getValue_eq host T h hs
  generalize beValue (st.stream.take T.sizeof) = L at *
  have hc : ¬ (getValue host T st < (if minLength < T.sizeof then T.sizeof else minLength) ∨
      getValue host T st > maxLength) := by
    rw [hv]
    split <;> omega
  have hw : ¬ st._length < getValue host T st := by rw [hv]; omega
  have hLW : T.sizeof ≤ L := by omega
  obtain ⟨s1, e1, wf1, str1, len1⟩ := moveHeader_spec h T.sizeof hs
  have hbody : L - T.sizeof ≤ s1._length := by omega
  obtain ⟨s2, e2, wf2, str2, len2⟩ := moveHeader_spec wf1 (L - T.sizeof) hbody
  refine ⟨s2, ?_, wf2, ?_, ?_⟩
  · rw [hv] at hc hw
    simp only [parseBuffer, getBufferLength, hn, if_false, hc, hw, e1, hv,
      size_t_sub_eq T L hLW hcard, getHeader_spec wf1 _ buffer hbody, e2, str1]
  · rw [str2, str1, List.drop_drop]
    congr 1
    omega
  · omega

theorem size_t_sub_le (a b : Nat) (h1 : b ≤ a) : size_t_sub a b ≤ a - b := by
  simp only [size_t_sub, SIZE_CARD]
  omega

theorem moveHeader_length {st s1 : TC_NetWorkBuffer} {len : Nat}
    (h : st.moveHeader len = some s1) : len ≤ st._length ∧ s1._length = st._length - len := by
  unfold moveHeader getBufferLength at h
  split at h
  · exact absurd h (by simp)
  · split at h
    · exact absurd h (by simp)
    · simp only [Option.some.injEq] at h
      subst h
      exact ⟨by omega, rfl⟩

/-- In every buffer state, invariant or not, a call that does not return
`PACKET_FULL` hands back the state and the output vector it was given. -/
theorem parseBuffer_not_full (host : ByteOrder) (T : LenType) (st : TC_NetWorkBuffer)
    (buffer : List Byte) (minLength maxLength : Nat) (r : PACKET_TYPE) (out : List Byte)
    (st' : TC_NetWorkBuffer)
    (hret : parseBuffer host T st buffer minLength maxLength = some (r, out, st'))
    (hr : r ≠ .PACKET_FULL) : st' = st ∧ out = buffer := by
  unfold parseBuffer at hret
  simp only at hret
  have hmW : T.sizeof ≤ (if minLength < T.sizeof then T.sizeof else minLength) := by
    split <;> omega
  generalize (if minLength < T.sizeof then T.sizeof else minLength) = m at hret hmW
  by_cases h1 : st.getBufferLength < T.sizeof
  · simp only [h1, if_true, Option.some.injEq, Prod.mk.injEq] at hret
    exact ⟨hret.2.2.symm, hret.2.1.symm⟩
  · by_cases h2 : getValue host T st < m ∨ getValue host T st > maxLength
    · simp only [h1, h2, if_true, if_false, Option.some.injEq, Prod.mk.injEq] at hret
      exact ⟨hret.2.2.symm, hret.2.1.symm⟩
    · by_cases h3 : st.getBufferLength < getValue host T st
      · simp only [h1, h2, h3, if_true, if_false, Option.some.injEq, Prod.mk.injEq] at hret
        exact ⟨hret.2.2.symm, hret.2.1.symm⟩
      · simp only [h1, h2, h3, if_false] at hret
        cases e1 : st.moveHeader T.sizeof with
        | none => simp [e1] at hret
        | some s1 =>
          obtain ⟨_, hl1⟩ := moveHeader_length e1
          have hW : T.sizeof ≤ getValue host T st := by omega
          have hsub := size_t_sub_le (getValue host T st) T.sizeof hW
          simp only [getBufferLength] at h3
          have hok : ¬ s1._length < size_t_sub (getValue host T st) T.sizeof := by omega
          simp only [e1, getHeader, getBufferLength, hok, if_false] at hret
          cases e2 : s1.moveHeader (size_t_sub (getValue host T st) T.sizeof) with
          | none => simp [e2] at hret
          | some s2 =>
            simp only [e2, Option.some.injEq, Prod.mk.injEq] at hret
            exact absurd hret.1.symm hr

/-- Under the invariant the call is one of the four outcomes, each with its
condition on the buffered stream. -/
theorem parseBuffer_cases (host : ByteOrder) (T : LenType) {st : TC_NetWorkBuffer} (h : WF st)
    (buffer : List Byte) (minLength maxLength : Nat) :
    (st.stream.length < T.sizeof ∧
      parseBuffer host T st buffer minLength maxLength = some (.PACKET_LESS, buffer, st)) ∨
    (T.sizeof ≤ st.stream.length ∧
      (beValue (st.stream.take T.sizeof) < max minLength T.sizeof ∨
        maxLength < beValue (st.stream.take T.sizeof)) ∧
      parseBuffer host T st buffer minLength maxLength = some (.PACKET_ERR, buffer, st)) ∨
    (T.sizeof ≤ st.stream.length ∧
      max minLength T.sizeof ≤ beValue (st.stream.take T.sizeof) ∧
      beValue (st.stream.take T.sizeof) ≤ maxLength ∧
      st.stream.length < beValue (st.stream.take T.sizeof) ∧
      parseBuffer host T st buffer minLength maxLength = some (.PACKET_LESS, buffer, st)) ∨
    (T.sizeof ≤ st.stream.length ∧
      max minLength T.sizeof ≤ beValue (st.stream.take T.sizeof) ∧
      beValue (st.stream.take T.sizeof) ≤ maxLength ∧
      beValue (st.stream.take T.sizeof) ≤ st.stream.length ∧
      ∃ st', parseBuffer host T st buffer minLength maxLength
          = some (.PACKET_FULL,
              (st.stream.drop T.sizeof).take (beValue (st.stream.take T.sizeof) - T.sizeof),
              st') ∧
        WF st' ∧ st'.stream = st.stream.drop (beValue (st.stream.take T.sizeof)) ∧
        st'._length = st._length - beValue (st.stream.take T.sizeof)) := by
  by_cases hs : st.stream.length < T.sizeof
  · exact Or.inl ⟨hs, parseBuffer_short host T h buffer minLength maxLength hs⟩
  · have hs' : T.sizeof ≤ st.stream.length := by omega
    by_cases hb : beValue (st.stream.take T.sizeof) < max minLength T.sizeof ∨
        maxLength < beValue (st.stream.take T.sizeof)
    · exact Or.inr (Or.inl ⟨hs', hb, parseBuffer_err host T h buffer minLength maxLength hs' hb⟩)
    · have h1 : max minLength T.sizeof ≤ beValue (st.stream.take T.sizeof) := by omega
      have h2 : beValue (st.stream.take T.sizeof) ≤ maxLength := by omega
      by_cases hw : st.stream.length < beValue (st.stream.take T.sizeof)
      · exact Or.inr (Or.inr (Or.inl ⟨hs', h1, h2, hw,
          parseBuffer_wait host T h buffer minLength maxLength hs' h1 h2 hw⟩))
      · exact Or.inr (Or.inr (Or.inr ⟨hs', h1, h2, by omega,
          parseBuffer_full host T h buffer minLength maxLength hs' h1 h2 (by omega)⟩))

theorem addBuffers_spec (chunks : List (List Byte)) :
    ∀ st : TC_NetWorkBuffer, WF st →
      WF (st.addBuffers chunks) ∧ (st.addBuffers chunks).stream = st.stream ++ chunks.flatten := by
  induction chunks with
  | nil => intro st h; exact ⟨h, by simp [addBuffers]⟩
  | cons c cs ih =>
    intro st h
    obtain ⟨w, e⟩ := ih (st.addBuffer c) (WF_addBuffer h c)
    refine ⟨w, ?_⟩
    show ((st.addBuffer c).addBuffers cs).stream = _
    rw [e, stream_addBuffer h, List.flatten_cons, List.append_assoc]

theorem stream_init : init.stream = [] := rfl

end TC_NetWorkBuffer

theorem beValue_append_single (l : List Byte) (b : Byte) :
    beValue (l ++ [b]) = beValue l * 256 + b.val := by
  simp [beValue]

theorem length_beBytes (w n : Nat) : (beBytes w n).length = w := by
  induction w generalizing n with
  | zero => rfl
  | succ w ih => simp [beBytes, ih]

theorem beValue_beBytes (w n : Nat) : beValue (beBytes w n) = n % 256 ^ w := by
  induction w generalizing n with
  | zero => simp [beBytes, beValue, Nat.mod_one]
  | succ w ih =>
    rw [beBytes, beValue_append_single, ih, Nat.pow_succ, Nat.mul_comm (256 ^ w) 256,
      Nat.mod_mul]
    simp only
    omega

theorem card_eq (T : LenType) : T.card = 256 ^ T.sizeof := by
  cases T <;> simp [LenType.card, LenType.sizeof]

theorem beValue_beBytes_of_lt (T : LenType) (n : Nat) (h : n < T.card) :
    beValue (beBytes T.sizeof n) = n := by
  rw [beValue_beBytes, ← card_eq, Nat.mod_eq_of_lt h]

namespace TC_NetWorkBuffer

/-- One step of a split delivery: while the buffered bytes are a proper front
part of a valid frame, the call waits and changes nothing. -/
theorem parseBuffer_front_part (host : ByteOrder) (T : LenType) {st : TC_NetWorkBuffer}
    (h : WF st) (minLength maxLength : Nat) (F rest : List Byte)
    (hF : validFrame T minLength maxLength F) (hst : st.stream ++ rest = F)
    (hlt : st.stream.length < F.length) :
    parseBuffer host T st [] minLength maxLength = some (.PACKET_LESS, [], st) := by
  obtain ⟨f1, f2, f3, f4⟩ := hF
  by_cases hs : st.stream.length < T.sizeof
  · exact parseBuffer_short host T h [] minLength maxLength hs
  · have htake : st.stream.take T.sizeof = F.take T.sizeof := by
      rw [← hst, List.take_append_of_le_length (by omega)]
    have hL : beValue (st.stream.take T.sizeof) = F.length := by rw [htake, f2]
    exact parseBuffer_wait host T h [] minLength maxLength (by omega) (by omega) (by omega)
      (by omega)

/-- A valid frame at the front of the buffered stream is taken off whole. -/
theorem parseBuffer_front_frame (host : ByteOrder) (T : LenType) {st : TC_NetWorkBuffer}
    (h : WF st) (minLength maxLength : Nat) (F rest : List Byte)
    (hF : validFrame T minLength maxLength F) (hst : st.stream = F ++ rest) :
    ∃ st', parseBuffer host T st [] minLength maxLength
        = some (.PACKET_FULL, F.drop T.sizeof, st') ∧ WF st' ∧ st'.stream = rest := by
  obtain ⟨f1, f2, f3, f4⟩ := hF
  have hlen : st.stream.length = F.length + rest.length := by rw [hst, List.length_append]
  have htake : st.stream.take T.sizeof = F.take T.sizeof := by
    rw [hst, List.take_append_of_le_length f1]
  have hL : beValue (st.stream.take T.sizeof) = F.length := by rw [htake, f2]
  obtain ⟨st', e, w', s', _⟩ := parseBuffer_full host T h [] minLength maxLength
    (by omega) (by omega) (by omega) (by omega)
  refine ⟨st', ?_, w', ?_⟩
  · rw [e, hL, hst, List.drop_append_of_le_length f1,
      List.take_append_of_le_length (by rw [List.length_drop]),
      List.take_of_length_le (by rw [List.length_drop])]
  · rw [s', hL, hst, List.drop_append_of_le_length (Nat.le_refl _), List.drop_length,
      List.nil_append]

theorem deliver_spec (host : ByteOrder) (T : LenType) (minLength maxLength : Nat)
    (F : List Byte) (hF : validFrame T minLength maxLength F) (chunks : List (List Byte)) :
    ∀ st : TC_NetWorkBuffer, WF st → st.stream ++ chunks.flatten = F →
      st.stream.length < F.length → ∀ i, i < chunks.length →
      (st.stream.length + (chunks.take (i + 1)).flatten.length < F.length →
        (deliver host T minLength maxLength st chunks)[i]? = some (.PACKET_LESS, [])) ∧
      (st.stream.length + (chunks.take i).flatten.length < F.length →
        st.stream.length + (chunks.take (i + 1)).flatten.length = F.length →
        (deliver host T minLength maxLength st chunks)[i]?
          = some (.PACKET_FULL, F.drop T.sizeof)) := by
  induction chunks with
  | nil => intro st _ _ _ i hi; simp at hi
  | cons c cs ih =>
    intro st h hst hlt i hi
    have hw1 := WF_addBuffer h c
    have hs1 := stream_addBuffer h c
    have hst1 : (st.addBuffer c).stream ++ cs.flatten = F := by
      rw [hs1, List.append_assoc, ← List.flatten_cons, hst]
    have hl1 : (st.addBuffer c).stream.length = st.stream.length + c.length := by
      rw [hs1, List.length_append]
    have hle : (st.addBuffer c).stream.length + cs.flatten.length = F.length := by
      rw [← hst1, List.length_append]
    by_cases hfull : (st.addBuffer c).stream.length < F.length
    · have e := parseBuffer_front_part host T hw1 minLength maxLength F _ hF hst1 hfull
      cases i with
      | zero =>
        refine ⟨fun _ => by simp [deliver, e], fun _ h2 => ?_⟩
        simp only [Nat.zero_add, List.take_succ_cons, List.take_zero, List.flatten_cons,
          List.flatten_nil, List.append_nil] at h2
        omega
      | succ j =>
        have hj : j < cs.length := by simpa using hi
        obtain ⟨a, b⟩ := ih (st.addBuffer c) hw1 hst1 hfull j hj
        simp only [deliver, e, List.getElem?_cons_succ, List.take_succ_cons, List.flatten_cons,
          List.length_append]
        rw [hl1] at a b
        refine ⟨fun h1 => a (by omega), fun h1 h2 => b (by omega) (by omega)⟩
    · have hnil : cs.flatten = [] := List.eq_nil_of_length_eq_zero (by omega)
      have hstF : (st.addBuffer c).stream = F ++ [] := by
        rw [List.append_nil, ← hst1, hnil, List.append_nil]
      obtain ⟨st', e, _, _⟩ := parseBuffer_front_frame host T hw1 minLength maxLength F [] hF hstF
      cases i with
      | zero =>
        refine ⟨fun h1 => ?_, fun _ _ => by simp [deliver, e]⟩
        simp only [Nat.zero_add, List.take_succ_cons, List.take_zero, List.flatten_cons,
          List.flatten_nil, List.append_nil] at h1
        omega
      | succ j =>
        simp only [List.take_succ_cons, List.flatten_cons, List.length_append]
        refine ⟨fun h1 => by omega, fun h1 _ => by omega⟩

theorem parseTimes_spec (host : ByteOrder) (T : LenType) (minLength maxLength : Nat)
    (frames : List (List Byte)) :
    ∀ st : TC_NetWorkBuffer, WF st → st.stream = frames.flatten →
      (∀ F ∈ frames, validFrame T minLength maxLength F) →
      parseTimes host T minLength maxLength (frames.length + 1) st
        = frames.map (fun F => (PACKET_TYPE.PACKET_FULL, F.drop T.sizeof))
          ++ [(PACKET_TYPE.PACKET_LESS, [])] := by
  induction frames with
  | nil =>
    intro st h hs _
    have hshort : st.stream.length < T.sizeof := by
      rw [hs]; have := sizeof_pos T; simp; omega
    simp [parseTimes, parseBuffer_short host T h [] minLength maxLength hshort]
  | cons F fs ih =>
    intro st h hs hv
    obtain ⟨st', e, w', s'⟩ := parseBuffer_front_frame host T h minLength maxLength F fs.flatten
      (hv F (List.mem_cons_self _ _)) (by rw [hs, List.flatten_cons])
    have := ih st' w' s' (fun G hG => hv G (List.mem_cons_of_mem _ hG))
    rw [List.length_cons, parseTimes, e]
    simp only [List.map_cons, List.cons_append, this]

end TC_NetWorkBuffer

theorem TC_NetWorkBuffer.parseBinary_eq (host : ByteOrder) (T : LenType)
    (iMinLength iMaxLength : Nat) (inBuf : TC_NetWorkBuffer) (out : List Byte) :
    TC_NetWorkBuffer.parseBinary host T iMinLength iMaxLength inBuf out
      = inBuf.parseBuffer host T out iMinLength iMaxLength := by
  cases T <;> rfl

/-! ## The framing rule of `parseBuffer` -/

namespace TC_NetWorkBuffer

/-- C1: for each of the three length types, all bounds and every buffer state
satisfying the class invariant, `parseBuffer<T>` returns, and the value it
returns is the classification of the buffered stream `S`: `PACKET_LESS` when
`|S| < sizeof(T)`, else `PACKET_ERR` when the big-endian value `L` of the first
`sizeof(T)` bytes is below `max(minLength, sizeof(T))` or above `maxLength`,
else `PACKET_LESS` when `|S| < L`, else `PACKET_FULL`. -/
theorem parseBuffer_classify (host : ByteOrder) (T : LenType) (st : TC_NetWorkBuffer)
    (buffer : List Byte) (minLength maxLength : Nat) (h : WF st) :
    (parseBuffer host T st buffer minLength maxLength).map Prod.fst
      = some (classify T minLength maxLength st.stream) := by
  rcases parseBuffer_cases host T h buffer minLength maxLength with
    ⟨a, e⟩ | ⟨a, b, e⟩ | ⟨a, b, c, d, e⟩ | ⟨a, b, c, d, st', e, _⟩
  · simp [e, classify, a]
  · have a' : ¬ st.stream.length < T.sizeof := by omega
    have b' : beValue (st.stream.take T.sizeof) < max minLength T.sizeof ∨
        beValue (st.stream.take T.sizeof) > maxLength := b
    simp only [e, classify, a', b', if_true, if_false, Option.map_some']
  · have a' : ¬ st.stream.length < T.sizeof := by omega
    have b' : ¬ (beValue (st.stream.take T.sizeof) < max minLength T.sizeof ∨
        beValue (st.stream.take T.sizeof) > maxLength) := by omega
    simp only [e, classify, a', b', d, if_true, if_false, Option.map_some']
  · have a' : ¬ st.stream.length < T.sizeof := by omega
    have b' : ¬ (beValue (st.stream.take T.sizeof) < max minLength T.sizeof ∨
        beValue (st.stream.take T.sizeof) > maxLength) := by omega
    have d' : ¬ st.stream.length < beValue (st.stream.take T.sizeof) := by omega
    simp only [e, classify, a', b', d', if_false, Option.map_some']

/-- Witness of C1: the stream `00 05 41 42`, in two chunks, with a two-byte
length and bounds `2..10` is classified `PACKET_LESS`. -/
theorem parseBuffer_classify_witness :
    WF ((init.addBuffer [0, 5]).addBuffer [0x41, 0x42]) ∧
    (parseBuffer .little .uint16_t ((init.addBuffer [0, 5]).addBuffer [0x41, 0x42]) [] 2 10).map
        Prod.fst
      = some (classify .uint16_t 2 10 ((init.addBuffer [0, 5]).addBuffer [0x41, 0x42]).stream) :=
  ⟨WF_addBuffer (WF_addBuffer WF_init _) _,
    parseBuffer_classify .little .uint16_t _ [] 2 10 (WF_addBuffer (WF_addBuffer WF_init _) _)⟩

/-- C2: when `parseBuffer<T>` returns `PACKET_FULL` on a buffered stream `S`
with declared length `L`, the output vector is `S[sizeof(T):L]`, of length
`L - sizeof(T)`, the stream left in the buffer is `S[L:]`, and
`getBufferLength()` has gone down by exactly `L`. -/
theorem parseBuffer_full_effect (host : ByteOrder) (T : LenType) (st : TC_NetWorkBuffer)
    (buffer : List Byte) (minLength maxLength : Nat) (out : List Byte) (st' : TC_NetWorkBuffer)
    (h : WF st)
    (hret : parseBuffer host T st buffer minLength maxLength = some (.PACKET_FULL, out, st')) :
    out = (st.stream.take (beValue (st.stream.take T.sizeof))).drop T.sizeof ∧
    out.length = beValue (st.stream.take T.sizeof) - T.sizeof ∧
    st'.stream = st.stream.drop (beValue (st.stream.take T.sizeof)) ∧
    st'.getBufferLength + beValue (st.stream.take T.sizeof) = st.getBufferLength ∧
    WF st' := by
  rcases parseBuffer_cases host T h buffer minLength maxLength with
    ⟨_, e⟩ | ⟨_, _, e⟩ | ⟨_, _, _, _, e⟩ | ⟨a, b, c, d, s2, e, w2, hs2, hl2⟩
  · rw [e] at hret; simp at hret
  · rw [e] at hret; simp at hret
  · rw [e] at hret; simp at hret
  · rw [e] at hret
    simp only [Option.some.injEq, Prod.mk.injEq, true_and] at hret
    obtain ⟨ho, hst⟩ := hret
    subst hst
    subst ho
    have hlen := stream_length h
    refine ⟨?_, ?_, hs2, ?_, w2⟩
    · rw [List.drop_take]
    · rw [List.length_take, List.length_drop]
      omega
    · simp only [getBufferLength]
      omega

/-- Witness of C2: `05 41 42 43 09` with a one-byte length and bounds `1..10`
is a full packet. -/
theorem parseBuffer_full_effect_witness :
    WF (init.addBuffer [5, 0x41, 0x42, 0x43, 0x44, 9]) ∧
    parseBuffer .big .uint8_t (init.addBuffer [5, 0x41, 0x42, 0x43, 0x44, 9]) [] 1 10
      = some (.PACKET_FULL, [0x41, 0x42, 0x43, 0x44], ⟨[[5, 0x41, 0x42, 0x43, 0x44, 9]], 1, 5⟩) ∧
    ([0x41, 0x42, 0x43, 0x44] : List Byte)
      = ((init.addBuffer [5, 0x41, 0x42, 0x43, 0x44, 9]).stream.take
          (beValue ((init.addBuffer [5, 0x41, 0x42, 0x43, 0x44, 9]).stream.take
            LenType.uint8_t.sizeof))).drop LenType.uint8_t.sizeof ∧
    (TC_NetWorkBuffer.mk [[5, 0x41, 0x42, 0x43, 0x44, 9]] 1 5).stream
      = (init.addBuffer [5, 0x41, 0x42, 0x43, 0x44, 9]).stream.drop
          (beValue ((init.addBuffer [5, 0x41, 0x42, 0x43, 0x44, 9]).stream.take
            LenType.uint8_t.sizeof)) :=
  have hw := WF_addBuffer WF_init [5, 0x41, 0x42, 0x43, 0x44, 9]
  have hr : parseBuffer .big .uint8_t (init.addBuffer [5, 0x41, 0x42, 0x43, 0x44, 9]) [] 1 10
      = some (.PACKET_FULL, [0x41, 0x42, 0x43, 0x44], ⟨[[5, 0x41, 0x42, 0x43, 0x44, 9]], 1, 5⟩) := by
    decide
  have ht := parseBuffer_full_effect .big .uint8_t _ [] 1 10 _ _ hw hr
  ⟨hw, hr, ht.1, ht.2.2.1⟩

/-- C3 (round trip): a body of length `B` with `minBodyLen ≤ B + sizeof(T) ≤
maxBodyLen` (a bound of type `T`) is encoded as `B + sizeof(T)` in
`sizeof(T)` big-endian bytes followed by the body; whatever the division of the
encoding into chunks appended to a fresh buffer, `parseBuffer<T>` returns
`PACKET_FULL`, the output vector is the body, and the buffer is left empty. -/
theorem parseBuffer_round_trip (host : ByteOrder) (T : LenType) (body buffer : List Byte)
    (minBodyLen maxBodyLen : Nat) (chunks : List (List Byte))
    (hmin : minBodyLen ≤ body.length + T.sizeof) (hmax : body.length + T.sizeof ≤ maxBodyLen)
    (hT : maxBodyLen < T.card) (hchunks : chunks.flatten = encodeFrame T body) :
    ∃ st', parseBuffer host T (init.addBuffers chunks) buffer minBodyLen maxBodyLen
        = some (.PACKET_FULL, body, st') ∧
      st'.empty = true ∧ st'.getBufferLength = 0 ∧ st'.stream = [] := by
  obtain ⟨hw, hs⟩ := addBuffers_spec chunks init WF_init
  rw [stream_init, List.nil_append, hchunks] at hs
  have hlenenc := length_beBytes T.sizeof (body.length + T.sizeof)
  have htake : (init.addBuffers chunks).stream.take T.sizeof
      = beBytes T.sizeof (body.length + T.sizeof) := by
    rw [hs, encodeFrame, List.take_append_of_le_length (by omega),
      List.take_of_length_le (by omega)]
  have hdrop : (init.addBuffers chunks).stream.drop T.sizeof = body := by
    rw [hs, encodeFrame, List.drop_append_of_le_length (by omega),
      List.drop_of_length_le (by omega), List.nil_append]
  have hL : beValue ((init.addBuffers chunks).stream.take T.sizeof) = body.length + T.sizeof := by
    rw [htake, beValue_beBytes_of_lt T _ (by omega)]
  have hslen : (init.addBuffers chunks).stream.length = body.length + T.sizeof := by
    rw [hs, encodeFrame, List.length_append, hlenenc]; omega
  have hlen := stream_length hw
  obtain ⟨st', e, w', s', l'⟩ := parseBuffer_full host T hw buffer minBodyLen maxBodyLen
    (by omega) (by rw [hL]; have := sizeof_pos T; omega) (by omega) (by omega)
  refine ⟨st', ?_, ?_, ?_, ?_⟩
  · rw [e, hL, hdrop, Nat.add_sub_cancel, List.take_of_length_le (Nat.le_refl _)]
  · simp only [empty, getBufferLength, beq_iff_eq]; omega
  · simp only [getBufferLength]; omega
  · rw [s', List.drop_of_length_le (by omega)]

/-- Witness of C3: the body `41 42 43` behind a four-byte length, delivered in
the chunks `00 00`, `00 07 41`, (empty), `42 43`. -/
theorem parseBuffer_round_trip_witness :
    ∃ st', parseBuffer .little .uint32_t
        (init.addBuffers [[0, 0], [0, 7, 0x41], [], [0x42, 0x43]]) [] 4 100
        = some (.PACKET_FULL, [0x41, 0x42, 0x43], st') ∧
      st'.empty = true ∧ st'.getBufferLength = 0 ∧ st'.stream = [] :=
  parseBuffer_round_trip .little .uint32_t [0x41, 0x42, 0x43] [] 4 100
    [[0, 0], [0, 7, 0x41], [], [0x42, 0x43]] (by decide) (by decide) (by decide) (by decide)

/-- C4 (split delivery): a valid frame `F` of declared total length `L = |F|`
is appended to a fresh buffer in any division into chunks, with a call of
`parseBuffer<T>` after each append. The call after append `i` returns
`PACKET_LESS` as long as fewer than `L` bytes have been appended, and the call
after the append that brings the total to `L` returns `PACKET_FULL` with the
body `F[sizeof(T):L]`. -/
theorem parseBuffer_split_delivery (host : ByteOrder) (T : LenType) (minLength maxLength : Nat)
    (F : List Byte) (chunks : List (List Byte)) (i : Nat)
    (hF : validFrame T minLength maxLength F) (hchunks : chunks.flatten = F)
    (hi : i < chunks.length) :
    ((chunks.take (i + 1)).flatten.length < F.length →
      (deliver host T minLength maxLength init chunks)[i]? = some (.PACKET_LESS, [])) ∧
    ((chunks.take i).flatten.length < F.length →
      (chunks.take (i + 1)).flatten.length = F.length →
      (deliver host T minLength maxLength init chunks)[i]?
        = some (.PACKET_FULL, F.drop T.sizeof)) := by
  have hpos : (0 : Nat) < F.length := by
    have := hF.1
    have := sizeof_pos T
    omega
  have := deliver_spec host T minLength maxLength F hF chunks init WF_init
    (by rw [stream_init, List.nil_append, hchunks]) (by rw [stream_init]; exact hpos) i hi
  simpa [stream_init] using this

/-- Witness of C4: the chunks `00 05`, `41 42`, `43` with a two-byte length
and bounds `2..10` give `PACKET_LESS`, `PACKET_LESS`, then `PACKET_FULL` with
the body `41 42 43`. -/
theorem parseBuffer_split_delivery_witness :
    validFrame .uint16_t 2 10 [0x00, 0x05, 0x41, 0x42, 0x43] ∧
    (deliver .little .uint16_t 2 10 init [[0x00, 0x05], [0x41, 0x42], [0x43]])[0]?
      = some (.PACKET_LESS, []) ∧
    (deliver .little .uint16_t 2 10 init [[0x00, 0x05], [0x41, 0x42], [0x43]])[1]?
      = some (.PACKET_LESS, []) ∧
    (deliver .little .uint16_t 2 10 init [[0x00, 0x05], [0x41, 0x42], [0x43]])[2]?
      = some (.PACKET_FULL, [0x41, 0x42, 0x43]) :=
  ⟨by decide,
    (parseBuffer_split_delivery .little .uint16_t 2 10 [0x00, 0x05, 0x41, 0x42, 0x43]
      [[0x00, 0x05], [0x41, 0x42], [0x43]] 0 (by decide) (by decide) (by decide)).1 (by decide),
    (parseBuffer_split_delivery .little .uint16_t 2 10 [0x00, 0x05, 0x41, 0x42, 0x43]
      [[0x00, 0x05], [0x41, 0x42], [0x43]] 1 (by decide) (by decide) (by decide)).1 (by decide),
    (parseBuffer_split_delivery .little .uint16_t 2 10 [0x00, 0x05, 0x41, 0x42, 0x43]
      [[0x00, 0x05], [0x41, 0x42], [0x43]] 2 (by decide) (by decide) (by decide)).2 (by decide)
      (by decide)⟩

/-- C5 (several packets in one chunk): `n` valid frames are concatenated and
appended as one chunk to a fresh buffer. Then `n` successive calls of
`parseBuffer<T>` each return `PACKET_FULL`, call `i` with the body of frame
`i`, and call `n + 1` returns `PACKET_LESS`. -/
theorem parseBuffer_many_packets (host : ByteOrder) (T : LenType) (minLength maxLength : Nat)
    (frames : List (List Byte)) (hframes : ∀ F ∈ frames, validFrame T minLength maxLength F) :
    parseTimes host T minLength maxLength (frames.length + 1) (init.addBuffer frames.flatten)
      = frames.map (fun F => (PACKET_TYPE.PACKET_FULL, F.drop T.sizeof))
        ++ [(PACKET_TYPE.PACKET_LESS, [])] :=
  parseTimes_spec host T minLength maxLength frames _ (WF_addBuffer WF_init _)
    (by rw [stream_addBuffer WF_init, stream_init, List.nil_append]) hframes

/-- Witness of C5: the two one-byte-length frames `03 41 42` and `02 43` in
one chunk, through `parseBinary1<1, 10>`'s bounds: `PACKET_FULL`,
`PACKET_FULL`, `PACKET_LESS`. -/
theorem parseBuffer_many_packets_witness :
    parseTimes .big .uint8_t 1 10 3 (init.addBuffer [0x03, 0x41, 0x42, 0x02, 0x43])
      = [(.PACKET_FULL, [0x41, 0x42]), (.PACKET_FULL, [0x43]), (.PACKET_LESS, [])] :=
  parseBuffer_many_packets .big .uint8_t 1 10 [[0x03, 0x41, 0x42], [0x02, 0x43]] (by decide)

/-- C6 (atomicity): in every buffer state, whenever `parseBuffer<T>` returns
`PACKET_LESS` or `PACKET_ERR`, the state after the call (chunk list, `_pos`,
`_length`) is the state before it and the output vector is untouched; and in
every state satisfying the class invariant the call does return. -/
theorem parseBuffer_atomic (host : ByteOrder) (T : LenType) (st : TC_NetWorkBuffer)
    (buffer : List Byte) (minLength maxLength : Nat) :
    (WF st → ∃ res, parseBuffer host T st buffer minLength maxLength = some res) ∧
    ∀ r out st', parseBuffer host T st buffer minLength maxLength = some (r, out, st') →
      r = .PACKET_LESS ∨ r = .PACKET_ERR → st' = st ∧ out = buffer := by
  refine ⟨fun h => ?_, fun r out st' hret hr => ?_⟩
  · rcases parseBuffer_cases host T h buffer minLength maxLength with
      ⟨_, e⟩ | ⟨_, _, e⟩ | ⟨_, _, _, _, e⟩ | ⟨_, _, _, _, s2, e, _⟩
    all_goals exact ⟨_, e⟩
  · refine parseBuffer_not_full host T st buffer minLength maxLength r out st' hret ?_
    rcases hr with rfl | rfl <;> decide

/-- Witness of C6: with `00 05 41 42` buffered in two chunks the two-byte
framing waits, and with bounds `2..4` it rejects; the state stays as it was. -/
theorem parseBuffer_atomic_witness :
    parseBuffer .little .uint16_t ((init.addBuffer [0, 5]).addBuffer [0x41, 0x42]) [] 2 10
      = some (.PACKET_LESS, [], ⟨[[0, 5], [0x41, 0x42]], 4, 0⟩) ∧
    (TC_NetWorkBuffer.mk [[0, 5], [0x41, 0x42]] 4 0
        = (init.addBuffer [0, 5]).addBuffer [0x41, 0x42] ∧ ([] : List Byte) = []) ∧
    parseBuffer .little .uint16_t ((init.addBuffer [0, 5]).addBuffer [0x41, 0x42]) [] 2 4
      = some (.PACKET_ERR, [], ⟨[[0, 5], [0x41, 0x42]], 4, 0⟩) ∧
    (TC_NetWorkBuffer.mk [[0, 5], [0x41, 0x42]] 4 0
        = (init.addBuffer [0, 5]).addBuffer [0x41, 0x42] ∧ ([] : List Byte) = []) :=
  ⟨by decide,
    (parseBuffer_atomic .little .uint16_t ((init.addBuffer [0, 5]).addBuffer [0x41, 0x42]) []
      2 10).2 .PACKET_LESS [] ⟨[[0, 5], [0x41, 0x42]], 4, 0⟩ (by decide) (Or.inl rfl),
    by decide,
    (parseBuffer_atomic .little .uint16_t ((init.addBuffer [0, 5]).addBuffer [0x41, 0x42]) []
      2 4).2 .PACKET_ERR [] ⟨[[0, 5], [0x41, 0x42]], 4, 0⟩ (by decide) (Or.inr rfl)⟩

/-- C7 (idempotence of `PACKET_LESS`): when `parseBuffer<T>` returns
`PACKET_LESS`, a second call with the same bounds and no append in between
returns `PACKET_LESS` again, in the same state, and `getBufferLength()` after
the second call is what it was before the first. -/
theorem parseBuffer_less_idempotent (host : ByteOrder) (T : LenType) (st : TC_NetWorkBuffer)
    (buffer : List Byte) (minLength maxLength : Nat) (out : List Byte) (st' : TC_NetWorkBuffer)
    (hret : parseBuffer host T st buffer minLength maxLength = some (.PACKET_LESS, out, st')) :
    ∃ out2 st2, parseBuffer host T st' out minLength maxLength = some (.PACKET_LESS, out2, st2) ∧
      st2.getBufferLength = st.getBufferLength ∧ st2 = st := by
  obtain ⟨hs, ho⟩ := parseBuffer_not_full host T st buffer minLength maxLength _ out st' hret
    (by decide)
  subst hs
  subst ho
  exact ⟨out, st', hret, rfl, rfl⟩

/-- Witness of C7: one byte buffered, four-byte length. -/
theorem parseBuffer_less_idempotent_witness :
    parseBuffer .big .uint32_t (init.addBuffer [0]) [] 4 100
      = some (.PACKET_LESS, [], init.addBuffer [0]) ∧
    ∃ out2 st2, parseBuffer .big .uint32_t (init.addBuffer [0]) [] 4 100
        = some (.PACKET_LESS, out2, st2) ∧
      st2.getBufferLength = (init.addBuffer [0]).getBufferLength ∧ st2 = init.addBuffer [0] :=
  ⟨by decide,
    parseBuffer_less_idempotent .big .uint32_t (init.addBuffer [0]) [] 4 100 []
      (init.addBuffer [0]) (by decide)⟩

/-! ## The bounds -/

/-- C8 as stated fails: a declared length equal to `maxBodyLen` is rejected when
`maxBodyLen` lies below the effective minimum `max(minBodyLen, sizeof(T))`.
With a two-byte length, bounds `0..1` and the stream `00 01`, and with a
one-byte length, bounds `3..2` and the stream `02 41`, the declared length is
`maxBodyLen`, that many bytes are buffered, and the call returns `PACKET_ERR`. -/
theorem parseBuffer_boundary_counterexample :
    (LenType.uint16_t.sizeof ≤ (init.addBuffer [0, 1]).stream.length ∧
      beValue ((init.addBuffer [0, 1]).stream.take LenType.uint16_t.sizeof) = 1 ∧
      1 ≤ (init.addBuffer [0, 1]).stream.length ∧
      parseBuffer .big .uint16_t (init.addBuffer [0, 1]) [] 0 1
        = some (.PACKET_ERR, [], init.addBuffer [0, 1])) ∧
    (LenType.uint8_t.sizeof ≤ (init.addBuffer [2, 0x41]).stream.length ∧
      beValue ((init.addBuffer [2, 0x41]).stream.take LenType.uint8_t.sizeof) = 2 ∧
      2 ≤ (init.addBuffer [2, 0x41]).stream.length ∧
      parseBuffer .big .uint8_t (init.addBuffer [2, 0x41]) [] 3 2
        = some (.PACKET_ERR, [], init.addBuffer [2, 0x41])) := by
  decide

/-- C8, amended: with at least `sizeof(T)` bytes buffered and `L` the declared
total length, (a) if `max(minBodyLen, sizeof(T)) ≤ maxBodyLen`, `L = maxBodyLen`
and the whole frame is buffered, the call returns `PACKET_FULL` with the body;
(b) if `L = maxBodyLen + 1` it returns `PACKET_ERR`; (c) if `L < sizeof(T)` it
returns `PACKET_ERR`. -/
theorem parseBuffer_boundary (host : ByteOrder) (T : LenType) (st : TC_NetWorkBuffer)
    (buffer : List Byte) (minBodyLen maxBodyLen : Nat) (h : WF st)
    (hW : T.sizeof ≤ st.stream.length) :
    (max minBodyLen T.sizeof ≤ maxBodyLen →
      beValue (st.stream.take T.sizeof) = maxBodyLen → maxBodyLen ≤ st.stream.length →
      ∃ st', parseBuffer host T st buffer minBodyLen maxBodyLen
        = some (.PACKET_FULL, (st.stream.take maxBodyLen).drop T.sizeof, st')) ∧
    (beValue (st.stream.take T.sizeof) = maxBodyLen + 1 →
      parseBuffer host T st buffer minBodyLen maxBodyLen = some (.PACKET_ERR, buffer, st)) ∧
    (beValue (st.stream.take T.sizeof) < T.sizeof →
      parseBuffer host T st buffer minBodyLen maxBodyLen = some (.PACKET_ERR, buffer, st)) := by
  refine ⟨fun hb hL hbuf => ?_, fun hL => ?_, fun hL => ?_⟩
  · obtain ⟨st', e, _⟩ := parseBuffer_full host T h buffer minBodyLen maxBodyLen hW
      (by omega) (by omega) (by omega)
    exact ⟨st', by rw [e, hL, List.drop_take]⟩
  · exact parseBuffer_err host T h buffer minBodyLen maxBodyLen hW (Or.inr (by omega))
  · exact parseBuffer_err host T h buffer minBodyLen maxBodyLen hW (Or.inl (by omega))

/-- Witness of C8, amended: bounds `2..5` with a one-byte length; the streams
`05 41 42 43 44`, `06 41` and `00 41`. -/
theorem parseBuffer_boundary_witness :
    (∃ st', parseBuffer .big .uint8_t (init.addBuffer [5, 0x41, 0x42, 0x43, 0x44]) [] 2 5
      = some (.PACKET_FULL, [0x41, 0x42, 0x43, 0x44], st')) ∧
    parseBuffer .big .uint8_t (init.addBuffer [6, 0x41]) [] 2 5
      = some (.PACKET_ERR, [], init.addBuffer [6, 0x41]) ∧
    parseBuffer .big .uint8_t (init.addBuffer [0, 0x41]) [] 2 5
      = some (.PACKET_ERR, [], init.addBuffer [0, 0x41]) :=
  ⟨(parseBuffer_boundary .big .uint8_t (init.addBuffer [5, 0x41, 0x42, 0x43, 0x44]) [] 2 5
      (WF_addBuffer WF_init _) (by decide)).1 (by decide) (by decide) (by decide),
    (parseBuffer_boundary .big .uint8_t (init.addBuffer [6, 0x41]) [] 2 5
      (WF_addBuffer WF_init _) (by decide)).2.1 (by decide),
    (parseBuffer_boundary .big .uint8_t (init.addBuffer [0, 0x41]) [] 2 5
      (WF_addBuffer WF_init _) (by decide)).2.2 (by decide)⟩

/-- C9 as stated fails: the bounds are compared with the declared total length,
not with the body length. With a one-byte length, bounds `3..10` and the
stream `03 41 42`, the declared length is `3`, the body length `3 - 1 = 2` is
below the minimum `3`, and the call returns `PACKET_FULL`, not `PACKET_ERR`. -/
theorem parseBuffer_body_bounds_counterexample :
    LenType.uint8_t.sizeof ≤ (init.addBuffer [3, 0x41, 0x42]).stream.length ∧
    LenType.uint8_t.sizeof
      ≤ beValue ((init.addBuffer [3, 0x41, 0x42]).stream.take LenType.uint8_t.sizeof) ∧
    beValue ((init.addBuffer [3, 0x41, 0x42]).stream.take LenType.uint8_t.sizeof)
      - LenType.uint8_t.sizeof < 3 ∧
    parseBuffer .big .uint8_t (init.addBuffer [3, 0x41, 0x42]) [] 3 10
      = some (.PACKET_FULL, [0x41, 0x42], ⟨[], 0, 0⟩) := by
  decide

/-- C9, amended: the bounds apply to the declared total length `L`, length
field included. With at least `sizeof(T)` bytes buffered, the call returns
`PACKET_ERR` if `L < max(min, sizeof(T))` or `L > max`; so it does whenever the
body length `L - sizeof(T)` exceeds `max`. -/
theorem parseBuffer_total_bounds (host : ByteOrder) (T : LenType) (st : TC_NetWorkBuffer)
    (buffer : List Byte) (minLength maxLength : Nat) (h : WF st)
    (hW : T.sizeof ≤ st.stream.length)
    (hout : beValue (st.stream.take T.sizeof) < max minLength T.sizeof ∨
      maxLength < beValue (st.stream.take T.sizeof) ∨
      maxLength < beValue (st.stream.take T.sizeof) - T.sizeof) :
    parseBuffer host T st buffer minLength maxLength = some (.PACKET_ERR, buffer, st) := by
  refine parseBuffer_err host T h buffer minLength maxLength hW ?_
  rcases hout with a | a | a
  · exact Or.inl a
  · exact Or.inr a
  · exact Or.inr (by omega)

/-- Witness of C9, amended: declared length `2` against bounds `3..10`. -/
theorem parseBuffer_total_bounds_witness :
    parseBuffer .little .uint8_t (init.addBuffer [2, 0x41]) [] 3 10
      = some (.PACKET_ERR, [], init.addBuffer [2, 0x41]) :=
  parseBuffer_total_bounds .little .uint8_t (init.addBuffer [2, 0x41]) [] 3 10
    (WF_addBuffer WF_init _) (by decide) (Or.inl (by decide))

/-- C10 as stated fails: the comparison is inclusive. `parseBinary1<2, 5>` on
the stream `05 01 02 03 04` (declared length equal to `iMaxLength`) and on the
stream `02 07` (declared length equal to `iMinLength`) returns `PACKET_FULL`,
not `PACKET_ERR`. -/
theorem parseBinary_strict_counterexample :
    beValue ((init.addBuffer [5, 1, 2, 3, 4]).stream.take LenType.uint8_t.sizeof) = 5 ∧
    parseBinary1 .big 2 5 (init.addBuffer [5, 1, 2, 3, 4]) []
      = some (.PACKET_FULL, [1, 2, 3, 4], ⟨[], 0, 0⟩) ∧
    beValue ((init.addBuffer [2, 7]).stream.take LenType.uint8_t.sizeof) = 2 ∧
    parseBinary1 .big 2 5 (init.addBuffer [2, 7]) []
      = some (.PACKET_FULL, [7], ⟨[], 0, 0⟩) := by
  decide

/-- C10, amended: for each `parseBinaryN<iMinLength, iMaxLength>` and every
buffered stream of at least `N` bytes with declared length `L`, the call
returns, and it returns `PACKET_ERR` exactly when
`max(iMinLength, N) ≤ L ≤ iMaxLength` fails, both comparisons inclusive. In
particular `L = iMaxLength` does not yield `PACKET_ERR` when
`max(iMinLength, N) ≤ iMaxLength`, and `L = iMinLength` does not yield
`PACKET_ERR` when `N ≤ iMinLength ≤ iMaxLength`. -/
theorem parseBinary_inclusive (host : ByteOrder) (T : LenType) (st : TC_NetWorkBuffer)
    (out : List Byte) (iMinLength iMaxLength : Nat) (h : WF st)
    (hW : T.sizeof ≤ st.stream.length) :
    ∃ r out' st', parseBinary host T iMinLength iMaxLength st out = some (r, out', st') ∧
      (r = .PACKET_ERR ↔
        ¬ (max iMinLength T.sizeof ≤ beValue (st.stream.take T.sizeof) ∧
          beValue (st.stream.take T.sizeof) ≤ iMaxLength)) ∧
      (beValue (st.stream.take T.sizeof) = iMaxLength →
        max iMinLength T.sizeof ≤ iMaxLength → r ≠ .PACKET_ERR) ∧
      (beValue (st.stream.take T.sizeof) = iMinLength →
        T.sizeof ≤ iMinLength → iMinLength ≤ iMaxLength → r ≠ .PACKET_ERR) := by
  have base : ∃ r out' st',
      parseBinary host T iMinLength iMaxLength st out = some (r, out', st') ∧
      (r = .PACKET_ERR ↔
        ¬ (max iMinLength T.sizeof ≤ beValue (st.stream.take T.sizeof) ∧
          beValue (st.stream.take T.sizeof) ≤ iMaxLength)) := by
    rw [parseBinary_eq]
    rcases parseBuffer_cases host T h out iMinLength iMaxLength with
      ⟨a, _⟩ | ⟨_, b, e⟩ | ⟨_, b, c, _, e⟩ | ⟨_, b, c, _, s2, e, _⟩
    · omega
    · exact ⟨_, _, _, e, by simp only [true_iff]; omega⟩
    · refine ⟨_, _, _, e, ?_⟩
      constructor
      · intro hr; exact absurd hr (by decide)
      · intro hn; exact absurd ⟨b, c⟩ hn
    · refine ⟨_, _, _, e, ?_⟩
      constructor
      · intro hr; exact absurd hr (by decide)
      · intro hn; exact absurd ⟨b, c⟩ hn
  obtain ⟨r, out', st', e, hiff⟩ := base
  refine ⟨r, out', st', e, hiff, fun hL hb hr => ?_, fun hL hw hb hr => ?_⟩
  · exact hiff.1 hr ⟨by omega, by omega⟩
  · exact hiff.1 hr ⟨by omega, by omega⟩

/-- Witness of C10, amended: `parseBinary2<2, 5>` on the stream `00 05 41`,
whose declared length is `iMaxLength = 5`; and `parseBinary1<2, 5>` on the
stream `02 07`, whose declared length is `iMinLength = 2`: neither call returns
`PACKET_ERR`. -/
theorem parseBinary_inclusive_witness :
    (∃ r out' st', parseBinary .little .uint16_t 2 5 (init.addBuffer [0, 5, 0x41]) []
        = some (r, out', st') ∧ r ≠ .PACKET_ERR) ∧
    (∃ r out' st', parseBinary .big .uint8_t 2 5 (init.addBuffer [2, 7]) []
        = some (r, out', st') ∧ r ≠ .PACKET_ERR) :=
  ⟨(parseBinary_inclusive .little .uint16_t (init.addBuffer [0, 5, 0x41]) [] 2 5
      (WF_addBuffer WF_init _) (by decide)).elim fun r hr => hr.elim fun o ho =>
        ho.elim fun s hs => ⟨r, o, s, hs.1, hs.2.2.1 (by decide) (by decide)⟩,
    (parseBinary_inclusive .big .uint8_t (init.addBuffer [2, 7]) [] 2 5
      (WF_addBuffer WF_init _) (by decide)).elim fun r hr => hr.elim fun o ho =>
        ho.elim fun s hs => ⟨r, o, s, hs.1, hs.2.2.2 (by decide) (by decide) (by decide)⟩⟩

end TC_NetWorkBuffer

/-! ## Scalar extraction, peek and consume, the length invariant -/

theorem beValue_take_eq_beSum (T : LenType) (S : List Byte) (h : T.sizeof ≤ S.length) :
    beValue (S.take T.sizeof) = beSum T.sizeof S := by
  cases T with
  | uint8_t =>
    match S, h with
    | a :: _, _ => simp [LenType.sizeof, beValue, beSum, List.range_succ]
  | uint16_t =>
    match S, h with
    | a :: b :: _, _ => simp [LenType.sizeof, beValue, beSum, List.range_succ]
  | uint32_t =>
    match S, h with
    | a :: b :: c :: d :: _, _ =>
      simp [LenType.sizeof, beValue, beSum, List.range_succ]
      omega

namespace TC_NetWorkBuffer

theorem getValue_short (host : ByteOrder) (T : LenType) (st : TC_NetWorkBuffer)
    (h : st._length < T.sizeof) : getValue host T st = 0 := by
  simp [getValue, getHeader_short st _ [] h]

theorem runOps_append (ops : List BufferOp) (op : BufferOp) :
    ∀ t : Traced, runOps t (ops ++ [op]) = (runOps t ops).bind (fun t' => applyOp t' op) := by
  induction ops with
  | nil =>
    intro t
    simp only [List.nil_append, runOps, Option.some_bind]
    cases applyOp t op <;> rfl
  | cons o os ih =>
    intro t
    simp only [List.cons_append, runOps]
    cases applyOp t o with
    | none => rfl
    | some t' => exact ih t'

theorem applyOp_invariant (t t' : Traced) (op : BufferOp) (hw : WF t.buf)
    (hc : t.buf._length + t.consumed = t.appended) (h : applyOp t op = some t') :
    WF t'.buf ∧ t'.buf._length + t'.consumed = t'.appended := by
  cases op with
  | addBuffer buff =>
    simp only [applyOp, Option.some.injEq] at h
    subst h
    exact ⟨WF_addBuffer hw buff, by simp only [addBuffer]; omega⟩
  | addSwapBuffer buff =>
    simp only [applyOp, Option.some.injEq] at h
    subst h
    exact ⟨WF_addBuffer hw buff, by simp only [addSwapBuffer]; omega⟩
  | moveHeader len =>
    simp only [applyOp] at h
    cases e : t.buf.moveHeader len with
    | none => simp [e] at h
    | some b =>
      simp only [e, Option.some.injEq] at h
      subst h
      obtain ⟨hle, hl⟩ := moveHeader_length e
      obtain ⟨b', e', w', _, _⟩ := moveHeader_spec hw len hle
      rw [e] at e'
      simp only [Option.some.injEq] at e'
      subst e'
      exact ⟨w', by simp only [hl]; omega⟩
  | clearBuffers =>
    simp only [applyOp, Option.some.injEq] at h
    subst h
    exact ⟨WF_init, rfl⟩

theorem runOps_invariant (ops : List BufferOp) :
    ∀ t t' : Traced, WF t.buf → t.buf._length + t.consumed = t.appended →
      runOps t ops = some t' → WF t'.buf ∧ t'.buf._length + t'.consumed = t'.appended := by
  induction ops with
  | nil =>
    intro t t' hw hc h
    simp only [runOps, Option.some.injEq] at h
    subst h
    exact ⟨hw, hc⟩
  | cons o os ih =>
    intro t t' hw hc h
    simp only [runOps] at h
    cases e : applyOp t o with
    | none => simp [e] at h
    | some t1 =>
      simp only [e] at h
      obtain ⟨w1, c1⟩ := applyOp_invariant t t1 o hw hc e
      exact ih t1 t' w1 c1 h

/-- C11: for each length type and every buffer state satisfying the class
invariant, with buffered stream `S` however split across chunks, `getValue<T>`
returns the sum over `i < sizeof(T)` of `S[i] * 256 ^ (sizeof(T) - 1 - i)` when
`|S| ≥ sizeof(T)` and `0` when `|S| < sizeof(T)`. The member is `const`: the
embedding has a value and no state as its result. -/
theorem getValue_scalar (host : ByteOrder) (T : LenType) (st : TC_NetWorkBuffer) (h : WF st) :
    (T.sizeof ≤ st.stream.length → getValue host T st = beSum T.sizeof st.stream) ∧
    (st.stream.length < T.sizeof → getValue host T st = 0) := by
  rw [stream_length h]
  refine ⟨fun hl => ?_, fun hl => getValue_short host T st hl⟩
  rw [(getValue_eq host T h hl).1]
  exact beValue_take_eq_beSum T st.stream (by rw [stream_length h]; exact hl)

/-- Witness of C11: the stream `01 | 02 03` read as a two-byte value is `258`,
and read as a four-byte value is `0`. -/
theorem getValue_scalar_witness :
    (getValue .little .uint16_t ((init.addBuffer [1]).addBuffer [2, 3])
        = beSum LenType.uint16_t.sizeof ((init.addBuffer [1]).addBuffer [2, 3]).stream ∧
      beSum LenType.uint16_t.sizeof ((init.addBuffer [1]).addBuffer [2, 3]).stream = 258) ∧
    getValue .little .uint32_t ((init.addBuffer [1]).addBuffer [2, 3]) = 0 :=
  ⟨⟨(getValue_scalar .little .uint16_t ((init.addBuffer [1]).addBuffer [2, 3])
      (WF_addBuffer (WF_addBuffer WF_init _) _)).1 (by decide), by decide⟩,
    (getValue_scalar .little .uint32_t ((init.addBuffer [1]).addBuffer [2, 3])
      (WF_addBuffer (WF_addBuffer WF_init _) _)).2 (by decide)⟩

/-- C12: let `S` be the concatenation of any sequence of chunks appended to a
fresh buffer. For `k ≤ |S|`, `getHeader(k)` succeeds with exactly `S[0:k]`, and
`moveHeader(k)` succeeds and leaves exactly `S[k:]` buffered (as the stream, as
the length, and as what a peek of all of it yields); for `k > |S|`,
`getHeader(k)` reports failure and leaves the output vector alone. Only `S`
enters the result, not the way it was split. `getHeader` is `const`. -/
theorem getHeader_moveHeader_slice (chunks : List (List Byte)) (k : Nat) (buffer : List Byte) :
    (k ≤ chunks.flatten.length →
      (init.addBuffers chunks).getHeader k buffer = (true, chunks.flatten.take k) ∧
      ∃ st', (init.addBuffers chunks).moveHeader k = some st' ∧
        st'.stream = chunks.flatten.drop k ∧
        st'.getBufferLength = chunks.flatten.length - k ∧
        st'.getHeader (chunks.flatten.length - k) buffer = (true, chunks.flatten.drop k)) ∧
    (chunks.flatten.length < k →
      (init.addBuffers chunks).getHeader k buffer = (false, buffer)) := by
  obtain ⟨hw, hs⟩ := addBuffers_spec chunks init WF_init
  rw [stream_init, List.nil_append] at hs
  have hlen := stream_length hw
  rw [hs] at hlen
  refine ⟨fun hk => ⟨?_, ?_⟩, fun hk => getHeader_short _ k buffer (by omega)⟩
  · rw [getHeader_spec hw k buffer (by omega), hs]
  · obtain ⟨st', e, w', s', l'⟩ := moveHeader_spec hw k (by omega)
    refine ⟨st', e, by rw [s', hs], by simp only [getBufferLength]; omega, ?_⟩
    rw [getHeader_spec w' _ buffer (by omega), s', hs,
      List.take_of_length_le (by rw [List.length_drop])]

/-- Witness of C12: `41 42 | 43 | 44 45`, peek and consume three bytes; peek
six bytes. -/
theorem getHeader_moveHeader_slice_witness :
    ((init.addBuffers [[0x41, 0x42], [0x43], [0x44, 0x45]]).getHeader 3 []
        = (true, [0x41, 0x42, 0x43]) ∧
      ∃ st', (init.addBuffers [[0x41, 0x42], [0x43], [0x44, 0x45]]).moveHeader 3 = some st' ∧
        st'.stream = [0x44, 0x45] ∧
        st'.getBufferLength = 2 ∧
        st'.getHeader 2 [] = (true, [0x44, 0x45])) ∧
    (init.addBuffers [[0x41, 0x42], [0x43], [0x44, 0x45]]).getHeader 6 [] = (false, []) :=
  ⟨(getHeader_moveHeader_slice [[0x41, 0x42], [0x43], [0x44, 0x45]] 3 []).1 (by decide),
    (getHeader_moveHeader_slice [[0x41, 0x42], [0x43], [0x44, 0x45]] 6 []).2 (by decide)⟩

/-- C13: in every state reached from the fresh buffer by a sequence of
`addBuffer`, `addSwapBuffer`, `moveHeader(len)` and `clearBuffers` calls whose
`moveHeader` assertions pass, `_length` plus `_pos` is the sum of the chunk
sizes, `_pos` lies inside the first chunk, and `getBufferLength()` plus the
bytes consumed since the last clear is the bytes appended since the last
clear; and in such a state every `moveHeader(len)` with
`len ≤ getBufferLength()` passes its assertion. -/
theorem runOps_length_invariant (ops : List BufferOp) (t : Traced)
    (h : runOps ⟨init, 0, 0⟩ ops = some t) :
    t.buf._length + t.buf._pos = (t.buf._bufferList.map List.length).sum ∧
    frontOK t.buf._bufferList t.buf._pos ∧
    t.buf.getBufferLength + t.consumed = t.appended ∧
    ∀ len, len ≤ t.buf.getBufferLength →
      ∃ t', runOps ⟨init, 0, 0⟩ (ops ++ [.moveHeader len]) = some t' := by
  obtain ⟨hw, hc⟩ := runOps_invariant ops ⟨init, 0, 0⟩ t WF_init rfl h
  refine ⟨?_, hw.2, hc, fun len hl => ?_⟩
  · have := hw.1
    rw [List.length_flatten] at this
    exact this
  · obtain ⟨b, e, _⟩ := moveHeader_spec hw len hl
    exact ⟨⟨b, t.appended, t.consumed + len⟩, by
      rw [runOps_append, h, Option.some_bind]
      simp only [applyOp, e]⟩

/-- Witness of C13: append three bytes, consume two, append two by swap,
consume one; then clear and append one byte. -/
theorem runOps_length_invariant_witness :
    runOps ⟨init, 0, 0⟩ [.addBuffer [1, 2, 3], .moveHeader 2, .addSwapBuffer [4, 5],
        .moveHeader 1] = some ⟨⟨[[4, 5]], 2, 0⟩, 5, 3⟩ ∧
    ((2 : Nat) + 0 = (([[4, 5]] : List (List Byte)).map List.length).sum ∧
      (TC_NetWorkBuffer.mk [[4, 5]] 2 0).getBufferLength + 3 = 5) ∧
    runOps ⟨init, 0, 0⟩ [.addBuffer [1, 2, 3], .moveHeader 2, .clearBuffers, .addBuffer [9]]
      = some ⟨⟨[[9]], 1, 0⟩, 1, 0⟩ :=
  have hr : runOps ⟨init, 0, 0⟩ [.addBuffer [1, 2, 3], .moveHeader 2, .addSwapBuffer [4, 5],
      .moveHeader 1] = some ⟨⟨[[4, 5]], 2, 0⟩, 5, 3⟩ := by decide
  have ht := runOps_length_invariant _ _ hr
  ⟨hr, ⟨ht.1, ht.2.2.1⟩, by decide⟩

/-! ## The late return and the progress of the parse loop -/

theorem parseBuffer_full_length (host : ByteOrder) (T : LenType) (st : TC_NetWorkBuffer)
    (buffer : List Byte) (minLength maxLength : Nat) (out : List Byte) (st' : TC_NetWorkBuffer)
    (hret : parseBuffer host T st buffer minLength maxLength = some (.PACKET_FULL, out, st')) :
    st'._length + T.sizeof ≤ st._length := by
  unfold parseBuffer at hret
  simp only at hret
  generalize (if minLength < T.sizeof then T.sizeof else minLength) = m at hret
  by_cases h1 : st.getBufferLength < T.sizeof
  · simp [h1] at hret
  · by_cases h2 : getValue host T st < m ∨ getValue host T st > maxLength
    · simp [h1, h2] at hret
    · by_cases h3 : st.getBufferLength < getValue host T st
      · simp [h1, h2, h3] at hret
      · simp only [h1, h2, h3, if_false] at hret
        cases e1 : st.moveHeader T.sizeof with
        | none => simp [e1] at hret
        | some s1 =>
          obtain ⟨hle, hl1⟩ := moveHeader_length e1
          simp only [e1] at hret
          cases eh : s1.getHeader (size_t_sub (getValue host T st) T.sizeof) buffer with
          | mk ok body =>
            cases ok with
            | false => simp [eh] at hret
            | true =>
              simp only [eh] at hret
              cases e2 : s1.moveHeader (size_t_sub (getValue host T st) T.sizeof) with
              | none => simp [e2] at hret
              | some s2 =>
                obtain ⟨_, hl2⟩ := moveHeader_length e2
                simp only [e2, Option.some.injEq, Prod.mk.injEq, true_and] at hret
                rw [← hret.2]
                omega

theorem parseTimes_until_not_full (host : ByteOrder) (T : LenType) (minLength maxLength : Nat)
    (n : Nat) :
    ∀ st : TC_NetWorkBuffer, WF st → st._length = n →
      ∃ k, k ≤ n / T.sizeof ∧ ∃ fulls r,
        parseTimes host T minLength maxLength (k + 1) st = fulls ++ [(r, [])] ∧
        fulls.length = k ∧ (∀ e ∈ fulls, e.1 = PACKET_TYPE.PACKET_FULL) ∧
        (r = .PACKET_LESS ∨ r = .PACKET_ERR) := by
  induction n using Nat.strong_induction_on with
  | _ n ih =>
    intro st h hn
    rcases parseBuffer_cases host T h [] minLength maxLength with
      ⟨_, e⟩ | ⟨_, _, e⟩ | ⟨_, _, _, _, e⟩ | ⟨a, b, c, d, s2, e, w2, _, hl2⟩
    · exact ⟨0, Nat.zero_le _, [], .PACKET_LESS, by simp [parseTimes, e], rfl, by simp,
        Or.inl rfl⟩
    · exact ⟨0, Nat.zero_le _, [], .PACKET_ERR, by simp [parseTimes, e], rfl, by simp,
        Or.inr rfl⟩
    · exact ⟨0, Nat.zero_le _, [], .PACKET_LESS, by simp [parseTimes, e], rfl, by simp,
        Or.inl rfl⟩
    · have hW := sizeof_pos T
      have hlen := stream_length h
      have hdec : s2._length + T.sizeof ≤ n := by omega
      obtain ⟨k, hk, fulls, r, hp, hfl, hall, hr⟩ := ih s2._length (by omega) s2 w2 rfl
      refine ⟨k + 1, ?_,
        (PACKET_TYPE.PACKET_FULL,
          (st.stream.drop T.sizeof).take (beValue (st.stream.take T.sizeof) - T.sizeof)) :: fulls,
        r, ?_, by simp [hfl], ?_, hr⟩
      · have h1 : s2._length / T.sizeof + 1 = (s2._length + T.sizeof) / T.sizeof :=
          (Nat.add_div_right _ (by omega)).symm
        have h2 : (s2._length + T.sizeof) / T.sizeof ≤ n / T.sizeof :=
          Nat.div_le_div_right hdec
        omega
      · rw [parseTimes, e]
        simp only [hp, List.cons_append]
      · intro x hx
        rcases List.mem_cons.1 hx with rfl | hx
        · rfl
        · exact hall x hx

/-- C19: in a state satisfying the class invariant, once `parseBuffer<T>` has
passed its three checks (at least `sizeof(T)` bytes buffered, `length` inside
the clamped bounds, `getBufferLength() ≥ length`), the subtraction
`length - sizeof(T)` does not wrap, `moveHeader(sizeof(T))` passes,
`getHeader(length - sizeof(T))` on the state after it returns `true`, the second
`moveHeader` passes and the call returns `PACKET_FULL`: the `PACKET_LESS` placed
behind the first `moveHeader` is never taken. -/
theorem parseBuffer_late_less_unreachable (host : ByteOrder) (T : LenType)
    (st : TC_NetWorkBuffer) (buffer : List Byte) (minLength maxLength : Nat) (h : WF st)
    (h1 : ¬ st.getBufferLength < T.sizeof)
    (h2 : ¬ (getValue host T st < (if minLength < T.sizeof then T.sizeof else minLength) ∨
      getValue host T st > maxLength))
    (h3 : ¬ st.getBufferLength < getValue host T st) :
    T.sizeof ≤ getValue host T st ∧
    size_t_sub (getValue host T st) T.sizeof = getValue host T st - T.sizeof ∧
    ∃ s1, st.moveHeader T.sizeof = some s1 ∧
      ∃ body, s1.getHeader (size_t_sub (getValue host T st) T.sizeof) buffer = (true, body) ∧
        ∃ s2, s1.moveHeader (size_t_sub (getValue host T st) T.sizeof) = some s2 ∧
          parseBuffer host T st buffer minLength maxLength = some (.PACKET_FULL, body, s2) := by
  simp only [getBufferLength] at h1 h3
  obtain ⟨hv, hcard⟩ := getValue_eq host T h (by omega)
  rw [← hv] at hcard
  have hW : T.sizeof ≤ getValue host T st := by
    have : ¬ getValue host T st < (if minLength < T.sizeof then T.sizeof else minLength) :=
      fun x => h2 (Or.inl x)
    split at this <;> omega
  have hsub := size_t_sub_eq T _ hW hcard
  obtain ⟨s1, e1, w1, _, l1⟩ := moveHeader_spec h T.sizeof (by omega)
  have hbody : getValue host T st - T.sizeof ≤ s1._length := by omega
  obtain ⟨s2, e2, _⟩ := moveHeader_spec w1 _ hbody
  refine ⟨hW, hsub, s1, e1, _, by rw [hsub]; exact getHeader_spec w1 _ buffer hbody, s2,
    by rw [hsub]; exact e2, ?_⟩
  have h1' : ¬ st.getBufferLength < T.sizeof := h1
  have h3' : ¬ st.getBufferLength < getValue host T st := h3
  simp only [parseBuffer, h1', h2, h3', if_false, e1, hsub, getHeader_spec w1 _ buffer hbody, e2]

/-- Witness of C19: `00 05 41 | 42 43 44` with a two-byte length and bounds
`2..10`. -/
theorem parseBuffer_late_less_unreachable_witness :
    ∃ s1, ((init.addBuffer [0, 5, 0x41]).addBuffer [0x42, 0x43, 0x44]).moveHeader
        LenType.uint16_t.sizeof = some s1 ∧
      ∃ body, s1.getHeader
          (size_t_sub (getValue .little .uint16_t
            ((init.addBuffer [0, 5, 0x41]).addBuffer [0x42, 0x43, 0x44]))
            LenType.uint16_t.sizeof) [] = (true, body) ∧
        ∃ s2, s1.moveHeader
            (size_t_sub (getValue .little .uint16_t
              ((init.addBuffer [0, 5, 0x41]).addBuffer [0x42, 0x43, 0x44]))
              LenType.uint16_t.sizeof) = some s2 ∧
          parseBuffer .little .uint16_t
              ((init.addBuffer [0, 5, 0x41]).addBuffer [0x42, 0x43, 0x44]) [] 2 10
            = some (.PACKET_FULL, body, s2) :=
  (parseBuffer_late_less_unreachable .little .uint16_t
    ((init.addBuffer [0, 5, 0x41]).addBuffer [0x42, 0x43, 0x44]) [] 2 10
    (WF_addBuffer (WF_addBuffer WF_init _) _) (by decide) (by decide) (by decide)).2.2

/-- C20: `sizeof(T) ≥ 1`; in every state a call of `parseBuffer<T>` that
returns `PACKET_FULL` lowers `getBufferLength()` by at least `sizeof(T)`; and
from a state satisfying the class invariant with `N` bytes buffered, successive
calls with no append in between return `PACKET_FULL` some `k ≤ N / sizeof(T)`
times and then return `PACKET_LESS` or `PACKET_ERR`. -/
theorem parseBuffer_progress (host : ByteOrder) (T : LenType) (st : TC_NetWorkBuffer)
    (minLength maxLength : Nat) :
    1 ≤ T.sizeof ∧
    (∀ buffer out st',
      parseBuffer host T st buffer minLength maxLength = some (.PACKET_FULL, out, st') →
      st'.getBufferLength + T.sizeof ≤ st.getBufferLength) ∧
    (WF st → ∃ k, k ≤ st.getBufferLength / T.sizeof ∧ ∃ fulls r,
      parseTimes host T minLength maxLength (k + 1) st = fulls ++ [(r, [])] ∧
      fulls.length = k ∧ (∀ e ∈ fulls, e.1 = PACKET_TYPE.PACKET_FULL) ∧
      (r = .PACKET_LESS ∨ r = .PACKET_ERR)) :=
  ⟨sizeof_pos T,
    fun buffer out st' hret =>
      parseBuffer_full_length host T st buffer minLength maxLength out st' hret,
    fun h => parseTimes_until_not_full host T minLength maxLength st._length st h rfl⟩

/-- Witness of C20: seven bytes `00 03 41 00 02 00 01` with a two-byte length
and bounds `2..10`: the first call takes three bytes off, and two calls return
`PACKET_FULL` before the third returns `PACKET_ERR`; `2 ≤ 7 / 2`. -/
theorem parseBuffer_progress_witness :
    (TC_NetWorkBuffer.mk [[0, 3, 0x41, 0, 2, 0, 1]] 4 3).getBufferLength + LenType.uint16_t.sizeof
      ≤ (init.addBuffer [0, 3, 0x41, 0, 2, 0, 1]).getBufferLength ∧
    parseTimes .big .uint16_t 2 10 3 (init.addBuffer [0, 3, 0x41, 0, 2, 0, 1])
      = [(.PACKET_FULL, [0x41]), (.PACKET_FULL, []), (.PACKET_ERR, [])] :=
  ⟨(parseBuffer_progress .big .uint16_t (init.addBuffer [0, 3, 0x41, 0, 2, 0, 1]) 2 10).2.1
      [] [0x41] ⟨[[0, 3, 0x41, 0, 2, 0, 1]], 4, 3⟩ (by decide),
    by decide⟩

end TC_NetWorkBuffer

/-! ## The outbound buffer -/

namespace TC_NetWorkBuffer.SendBuffer

theorem uint32_card_pos : 0 < UINT32_CARD := by decide

theorem length_eq_mod (s : SendBuffer) (h : s.sendPos ≤ s.sendBuffer.length)
    (h32 : s.sendPos < UINT32_CARD) :
    s.length = (s.sendBuffer.length - s.sendPos) % UINT32_CARD := by
  simp only [length, size_t_sub, SIZE_CARD, UINT32_CARD] at h32 ⊢
  omega

theorem applyOp_cursor (s s' : SendBuffer) (op : SendOp) (hop : cursorInside op)
    (h : s.sendPos ≤ s.sendBuffer.length) (h32 : s.sendPos < UINT32_CARD)
    (e : applyOp s op = some s') :
    s'.sendPos ≤ s'.sendBuffer.length ∧ s'.sendPos < UINT32_CARD := by
  cases op with
  | swap buff =>
    simp only [applyOp, swap, Option.some.injEq] at e
    subst e
    exact ⟨Nat.zero_le _, uint32_card_pos⟩
  | clear =>
    simp only [applyOp, clear, Option.some.injEq] at e
    subst e
    exact ⟨Nat.zero_le _, uint32_card_pos⟩
  | addBuffer buffer =>
    simp only [applyOp, addBuffer, Option.some.injEq] at e
    subst e
    exact ⟨by simp only [List.length_append]; omega, h32⟩
  | assign buffer =>
    simp only [applyOp, assign, Option.some.injEq] at e
    subst e
    exact ⟨Nat.zero_le _, uint32_card_pos⟩
  | setBuffer buff pos =>
    simp only [applyOp, setBuffer, Option.some.injEq] at e
    subst e
    obtain ⟨h0, h1⟩ := hop
    simp only [UINT32_CARD, Nat.cast_ofNat]
    constructor <;> omega
  | add ret =>
    simp only [applyOp, add] at e
    split at e
    · rename_i hle
      simp only [Option.some.injEq] at e
      subst e
      exact ⟨hle, Nat.mod_lt _ uint32_card_pos⟩
    · exact absurd e (by simp)

theorem runOps_cursor (ops : List SendOp) :
    ∀ s s' : SendBuffer, (∀ op ∈ ops, cursorInside op) → s.sendPos ≤ s.sendBuffer.length →
      s.sendPos < UINT32_CARD → runOps s ops = some s' →
      s'.sendPos ≤ s'.sendBuffer.length ∧ s'.sendPos < UINT32_CARD := by
  induction ops with
  | nil =>
    intro s s' _ h h32 e
    simp only [runOps, Option.some.injEq] at e
    subst e
    exact ⟨h, h32⟩
  | cons o os ih =>
    intro s s' hops h h32 e
    simp only [runOps] at e
    cases e1 : applyOp s o with
    | none => simp [e1] at e
    | some s1 =>
      simp only [e1] at e
      obtain ⟨a, b⟩ := applyOp_cursor s s1 o (hops o (List.mem_cons_self _ _)) h h32 e1
      exact ih s1 s' (fun op hop => hops op (List.mem_cons_of_mem _ hop)) a b e

theorem length_wraps_on_append (X : List Byte) (h : X.length = 4294967295) :
    (ofVector X).sendPos ≤ (ofVector X).sendBuffer.length ∧
    (ofVector X).length = 4294967295 ∧ ((ofVector X).addBuffer [0]).length = 0 := by
  refine ⟨Nat.zero_le _, ?_, ?_⟩
  · simp only [ofVector, length, h]
    decide
  · simp only [ofVector, addBuffer, length, List.length_append, h, List.length_singleton]
    decide

theorem length_wraps_constructed (X : List Byte) (h : X.length = 4294967296) :
    runOps (ofVector X) [] = some (ofVector X) ∧
    (ofVector X).sendBuffer.length - (ofVector X).sendPos = 4294967296 ∧
    (ofVector X).length = 0 := by
  refine ⟨rfl, ?_, ?_⟩
  · simp only [ofVector, h, Nat.sub_zero]
  · simp only [ofVector, length, h]
    decide

theorem length_wraps_at_card (X : List Byte) (h : X.length = 4294967296) :
    ∃ s, (init.assign X).add 0 = some s ∧ s.length = 0 := by
  refine ⟨⟨X, 0⟩, ?_, ?_⟩
  · simp only [assign, add, Nat.add_zero, Nat.zero_mod, Nat.zero_le, if_true]
  · simp only [length, h]
    decide

/-- C14 as stated fails: `length()` is a `uint32_t`. After `assign` of
`4294967296` zero bytes and `add(0)`, with `0` below the number of bytes, the
assertion passes, nothing has been sent, and `length()` is `0`, not the
`4294967296` bytes that remain. -/
theorem sendBuffer_assign_add_counterexample :
    (0 : Nat) < (List.replicate 4294967296 (0 : Byte)).length ∧
    (List.replicate 4294967296 (0 : Byte)).length = 4294967296 ∧
    ∃ s, (init.assign (List.replicate 4294967296 (0 : Byte))).add 0 = some s ∧ s.length = 0 :=
  ⟨lt_of_lt_of_eq (Nat.succ_pos 4294967295) (List.length_replicate 4294967296 (0 : Byte)).symm,
    List.length_replicate 4294967296 (0 : Byte),
    length_wraps_at_card (List.replicate 4294967296 (0 : Byte))
      (List.length_replicate 4294967296 (0 : Byte))⟩

/-- C14, amended: for every byte string `X` and every 32-bit unsigned
`n < |X|` with `|X| - n` below `2 ^ 32`, after `assign(X)` and `add(n)` (whose
assertion passes) the data is `X`, the cursor is `n`, `buffer()` points at
offset `n` of `X`, so the bytes not yet sent are `X[n:]`, and `length()` is
`|X| - n`. -/
theorem sendBuffer_assign_add (s0 : SendBuffer) (X : List Byte) (n : Nat) (hn : n < X.length)
    (h32 : n < UINT32_CARD) (hfit : X.length - n < UINT32_CARD) :
    ∃ s, (s0.assign X).add n = some s ∧ s.sendBuffer = X ∧ s.sendPos = n ∧
      s.buffer = X.drop n ∧ s.length = X.length - n := by
  have hmod : (0 + n) % UINT32_CARD = n := by rw [Nat.zero_add, Nat.mod_eq_of_lt h32]
  have hle : (0 + n) % UINT32_CARD ≤ X.length := by rw [hmod]; omega
  refine ⟨⟨X, n⟩, ?_, rfl, rfl, rfl, ?_⟩
  · simp only [assign, add, hmod, Nat.le_of_lt hn, if_true]
  · simp only [length, size_t_sub, SIZE_CARD, UINT32_CARD] at h32 hfit ⊢
    omega

/-- Witness of C14, amended: `assign` of `41 42 43 44`, then `add(1)`. -/
theorem sendBuffer_assign_add_witness :
    ∃ s, (init.assign [0x41, 0x42, 0x43, 0x44]).add 1 = some s ∧
      s.sendBuffer = [0x41, 0x42, 0x43, 0x44] ∧ s.sendPos = 1 ∧
      s.buffer = [0x42, 0x43, 0x44] ∧ s.length = 3 :=
  sendBuffer_assign_add init [0x41, 0x42, 0x43, 0x44] 1 (by decide) (by decide) (by decide)

/-- C15 as stated fails. `setBuffer` stores the cursor it is given without a
check: from a fresh buffer, `setBuffer({}, 1)` gives `sendPos = 1` over an empty
vector, and `length()` is `4294967295`. And `length()` is a `uint32_t`: a
buffer constructed over `4294967296` zero bytes has `sendPos = 0` and
`length() = 0`. -/
theorem sendBuffer_invariant_counterexample :
    (runOps init [.setBuffer [] 1] = some ⟨[], 1⟩ ∧
      ¬ ((SendBuffer.mk [] 1).sendPos ≤ (SendBuffer.mk [] 1).sendBuffer.length) ∧
      (SendBuffer.mk [] 1).length = 4294967295) ∧
    (runOps (ofVector (List.replicate 4294967296 (0 : Byte))) []
        = some (ofVector (List.replicate 4294967296 (0 : Byte))) ∧
      (ofVector (List.replicate 4294967296 (0 : Byte))).sendBuffer.length
        - (ofVector (List.replicate 4294967296 (0 : Byte))).sendPos = 4294967296 ∧
      (ofVector (List.replicate 4294967296 (0 : Byte))).length = 0) :=
  ⟨by decide,
    length_wraps_constructed (List.replicate 4294967296 (0 : Byte))
      (List.length_replicate 4294967296 (0 : Byte))⟩

/-- C15, amended: in every state reached from a constructed buffer by a
sequence of `swap`, `clear`, `addBuffer`, `assign`, `add(n)` whose assertion
passes, and `setBuffer(buff, pos)` with `0 ≤ pos ≤ buff.size()`,
`sendPos ≤ sendBuffer.size()` holds and `length()` is
`sendBuffer.size() - sendPos` reduced modulo `2 ^ 32`, hence equal to it when it
is below `2 ^ 32`. -/
theorem sendBuffer_invariant (data : List Byte) (ops : List SendOp) (s : SendBuffer)
    (hops : ∀ op ∈ ops, cursorInside op) (h : runOps (ofVector data) ops = some s) :
    s.sendPos ≤ s.sendBuffer.length ∧
    s.length = (s.sendBuffer.length - s.sendPos) % UINT32_CARD ∧
    (s.sendBuffer.length - s.sendPos < UINT32_CARD →
      s.length = s.sendBuffer.length - s.sendPos) := by
  obtain ⟨a, b⟩ := runOps_cursor ops (ofVector data) s hops (Nat.zero_le _) uint32_card_pos h
  have hl := length_eq_mod s a b
  exact ⟨a, hl, fun hfit => by rw [hl, Nat.mod_eq_of_lt hfit]⟩

/-- Witness of C15, amended: construct over `41 42 43`, `add(2)`, `addBuffer`
of `44`, `setBuffer` of `45 46 47` at `1`, `add(1)`. -/
theorem sendBuffer_invariant_witness :
    runOps (ofVector [0x41, 0x42, 0x43])
        [.add 2, .addBuffer [0x44], .setBuffer [0x45, 0x46, 0x47] 1, .add 1]
      = some ⟨[0x45, 0x46, 0x47], 2⟩ ∧
    (SendBuffer.mk [0x45, 0x46, 0x47] 2).sendPos
      ≤ (SendBuffer.mk [0x45, 0x46, 0x47] 2).sendBuffer.length ∧
    (SendBuffer.mk [0x45, 0x46, 0x47] 2).length = 1 :=
  have hr : runOps (ofVector [0x41, 0x42, 0x43])
      [.add 2, .addBuffer [0x44], .setBuffer [0x45, 0x46, 0x47] 1, .add 1]
      = some ⟨[0x45, 0x46, 0x47], 2⟩ := by decide
  have ht := sendBuffer_invariant [0x41, 0x42, 0x43] _ _ (by decide) hr
  ⟨hr, ht.1, ht.2.2 (by decide)⟩

/-- C16 at its failing input: after `assign` of the one byte `41` and `add(1)`
the state is data `41`, cursor `1`, inside the vector. Then
`add(4294967295)`, a 32-bit value with `1 + 4294967295 > 1`, wraps `sendPos` to
`0`; the assertion `sendPos <= sendBuffer.size()` passes and the cursor has
moved back to `0`. -/
theorem sendBuffer_add_wraps :
    (init.assign [0x41]).add 1 = some ⟨[0x41], 1⟩ ∧
    (SendBuffer.mk [0x41] 1).sendPos ≤ (SendBuffer.mk [0x41] 1).sendBuffer.length ∧
    (4294967295 : Nat) < UINT32_CARD ∧
    (SendBuffer.mk [0x41] 1).sendBuffer.length < (SendBuffer.mk [0x41] 1).sendPos + 4294967295 ∧
    (SendBuffer.mk [0x41] 1).add 4294967295 = some ⟨[0x41], 0⟩ := by
  decide

/-- C17 as stated fails, in a state off the invariant and in one on it. After
`setBuffer({}, 1)` the data is empty and the cursor is `1`; `addBuffer` of the
byte `41` leaves nothing behind the cursor, not the byte appended, and
`length()` goes from `4294967295` to `0`. With `4294967295` zero bytes and the
cursor at `0`, `addBuffer` of one byte takes `length()` from `4294967295` to
`0`, not up by one. -/
theorem sendBuffer_addBuffer_counterexample :
    (init.setBuffer [] 1 = ⟨[], 1⟩ ∧
      ((SendBuffer.mk [] 1).addBuffer [0x41]).buffer = [] ∧
      (SendBuffer.mk [] 1).buffer ++ [0x41] = [0x41] ∧
      (SendBuffer.mk [] 1).length = 4294967295 ∧
      ((SendBuffer.mk [] 1).addBuffer [0x41]).length = 0) ∧
    ((ofVector (List.replicate 4294967295 (0 : Byte))).sendPos
        ≤ (ofVector (List.replicate 4294967295 (0 : Byte))).sendBuffer.length ∧
      (ofVector (List.replicate 4294967295 (0 : Byte))).length = 4294967295 ∧
      ((ofVector (List.replicate 4294967295 (0 : Byte))).addBuffer [0]).length = 0) :=
  ⟨by decide,
    length_wraps_on_append (List.replicate 4294967295 (0 : Byte))
      (List.length_replicate 4294967295 (0 : Byte))⟩

/-- C17, amended: for every state and every byte vector `b`, after
`addBuffer(b)` the data is the old data followed by `b` and `sendPos` is
unchanged; if moreover `sendPos ≤ sendBuffer.size()` and
`sendBuffer.size() + |b| - sendPos` is below `2 ^ 32`, the bytes not yet sent
are the previous ones followed by `b`, and `length()` has grown by exactly
`|b|`. -/
theorem sendBuffer_addBuffer (s : SendBuffer) (b : List Byte) :
    (s.addBuffer b).sendBuffer = s.sendBuffer ++ b ∧
    (s.addBuffer b).sendPos = s.sendPos ∧
    (s.sendPos ≤ s.sendBuffer.length →
      s.sendBuffer.length + b.length - s.sendPos < UINT32_CARD →
      (s.addBuffer b).buffer = s.buffer ++ b ∧
      (s.addBuffer b).length = s.length + b.length) := by
  refine ⟨rfl, rfl, fun hpos hfit => ⟨?_, ?_⟩⟩
  · simp only [buffer, addBuffer, List.drop_append_of_le_length hpos]
  · simp only [length, addBuffer, List.length_append, size_t_sub, SIZE_CARD, UINT32_CARD]
      at hfit ⊢
    omega

/-- Witness of C17, amended: data `41 42 43`, cursor `1`, append `44 45`. -/
theorem sendBuffer_addBuffer_witness :
    ((SendBuffer.mk [0x41, 0x42, 0x43] 1).addBuffer [0x44, 0x45]).buffer
      = (SendBuffer.mk [0x41, 0x42, 0x43] 1).buffer ++ [0x44, 0x45] ∧
    ((SendBuffer.mk [0x41, 0x42, 0x43] 1).addBuffer [0x44, 0x45]).length
      = (SendBuffer.mk [0x41, 0x42, 0x43] 1).length + 2 :=
  (sendBuffer_addBuffer ⟨[0x41, 0x42, 0x43], 1⟩ [0x44, 0x45]).2.2 (by decide) (by decide)

/-- C18: for every state (data, cursor) and every caller vector `b`, after
`swap(b)` the caller's vector is the previous data, all of it from index `0`
whatever the cursor was, the data of the send buffer is the previous `b`, and
the cursor is `0`. -/
theorem sendBuffer_swap (s : SendBuffer) (b : List Byte) :
    (s.swap b).2 = s.sendBuffer ∧ (s.swap b).1.sendBuffer = b ∧ (s.swap b).1.sendPos = 0 ∧
    (s.swap b).1.buffer = b := by
  refine ⟨rfl, rfl, rfl, ?_⟩
  simp [swap, buffer]

end TC_NetWorkBuffer.SendBuffer

end tars
